import Mathlib

/-!
Verification of the Eventmaster corporate-actions ingestion pipeline.

The definitions below are a shallow embedding of the Python sources:
  * `corporate_actions_processor.py` (date parsing, per-type normalizers,
    file orchestration),
  * `fix_date_formats.py` (out-of-band date repair pass),
  * `alfago_client.py` (identifier resolver with module-level cache),
  * `prowess_client.py` (batch poll loop),
  * `daily_updater_new.py` (retention sweeper).

Machine floats produced by Python's `float(...)` are represented as `Rat`
values obtained through an abstract conversion function `pf : String →
Option Rat` (`none` models `float(...)` raising `ValueError`); nothing in
the verified properties depends on float arithmetic.  The Alfago security
map obtained over the network is likewise an abstract parameter.
-/

namespace Eventmaster

/-! ### Character and digit utilities -/

/-- Decimal digit test, the `\d` class of CPython's `_strptime` regexes
(ASCII digits, as produced by the data sources). -/
def isDig (c : Char) : Bool := 48 ≤ c.toNat && c.toNat ≤ 57

/-- Numeric value of a digit character. -/
def dval (c : Char) : Nat := c.toNat - 48

/-- The digit character for `n < 10`. -/
def dig (n : Nat) : Char := Char.ofNat (48 + n)

/-- ASCII lowercasing, as done by `str.lower()` on the inputs at hand. -/
def lowc (c : Char) : Char :=
  if 65 ≤ c.toNat && c.toNat ≤ 90 then Char.ofNat (c.toNat + 32) else c

/-- Python `str.isspace` characters relevant to `str.strip()`. -/
def isSp (c : Char) : Bool := c.toNat == 32 || (9 ≤ c.toNat && c.toNat ≤ 13)

/-- Python `str.strip()`: remove whitespace from both ends. -/
def pyStrip (cs : List Char) : List Char :=
  ((cs.dropWhile isSp).reverse.dropWhile isSp).reverse

/-! ### CPython `strptime` regex semantics

Each directive is modelled as a function from the remaining input to the
list of ways it can match, in the backtracking order of the compiled
regex.  For the numeric directives the compiled alternations are
  `%d : 3[01]|[12]\d|0[1-9]|[1-9]`   (two-digit values 1–31, then one digit 1–9)
  `%m : 1[0-2]|0[1-9]|[1-9]`         (two-digit values 1–12, then one digit 1–9)
  `%H : 2[0-3]|[0-1]\d|\d`           (two-digit values 0–23, then one digit)
  `%M : [0-5]\d|\d`                  (two-digit values 0–59, then one digit)
  `%S : 6[0-1]|[0-5]\d|\d`           (two-digit values 0–61, then one digit)
i.e. in every case: all two-digit matches in a range, tried before the
one-digit match.  `numCand lo hi` captures exactly that. -/
def numCand (lo hi : Nat) : List Char → List (Nat × List Char)
  | c1 :: c2 :: rest =>
    (if isDig c1 && isDig c2
        && decide (lo ≤ 10 * dval c1 + dval c2)
        && decide (10 * dval c1 + dval c2 ≤ hi) then
       [(10 * dval c1 + dval c2, rest)]
     else []) ++
    (if isDig c1 && decide (lo ≤ dval c1) then [(dval c1, c2 :: rest)] else [])
  | [c1] => if isDig c1 && decide (lo ≤ dval c1) then [(dval c1, [])] else []
  | [] => []

/-- `%Y` : exactly four digits (`\d\d\d\d`). -/
def yearCand : List Char → List (Nat × List Char)
  | c1 :: c2 :: c3 :: c4 :: rest =>
    if isDig c1 && isDig c2 && isDig c3 && isDig c4 then
      [(((dval c1 * 10 + dval c2) * 10 + dval c3) * 10 + dval c4, rest)]
    else []
  | _ => []

/-- Month number from a lowercased three-letter abbreviation. -/
def monNum (a b c : Char) : Option Nat :=
  if a == 'j' && b == 'a' && c == 'n' then some 1
  else if a == 'f' && b == 'e' && c == 'b' then some 2
  else if a == 'm' && b == 'a' && c == 'r' then some 3
  else if a == 'a' && b == 'p' && c == 'r' then some 4
  else if a == 'm' && b == 'a' && c == 'y' then some 5
  else if a == 'j' && b == 'u' && c == 'n' then some 6
  else if a == 'j' && b == 'u' && c == 'l' then some 7
  else if a == 'a' && b == 'u' && c == 'g' then some 8
  else if a == 's' && b == 'e' && c == 'p' then some 9
  else if a == 'o' && b == 'c' && c == 't' then some 10
  else if a == 'n' && b == 'o' && c == 'v' then some 11
  else if a == 'd' && b == 'e' && c == 'c' then some 12
  else none

/-- `%b` : a three-letter month abbreviation, matched case-insensitively. -/
def bCand : List Char → List (Nat × List Char)
  | c1 :: c2 :: c3 :: rest =>
    match monNum (lowc c1) (lowc c2) (lowc c3) with
    | some m => [(m, rest)]
    | none => []
  | _ => []

/-- A literal character in the format string. -/
def litCand (l : Char) : List Char → List (Unit × List Char)
  | c :: rest => if c == l then [((), rest)] else []
  | [] => []

/-- Sequence two nondeterministic matchers, keeping backtracking order. -/
def candBind {α β : Type} (xs : List (α × List Char))
    (f : α → List Char → List (β × List Char)) : List (β × List Char) :=
  (xs.map fun p => f p.1 p.2).flatten

/-- Parsed year–month–day (plus ignored time for the `%H:%M:%S` format). -/
structure YMD where
  y : Nat
  m : Nat
  d : Nat
  deriving DecidableEq, Repr

/-- Format `"%d %b %Y"`. -/
def fmtDBY (cs : List Char) : List (YMD × List Char) :=
  candBind (numCand 1 31 cs) fun d cs1 =>
  candBind (litCand ' ' cs1) fun _ cs2 =>
  candBind (bCand cs2) fun m cs3 =>
  candBind (litCand ' ' cs3) fun _ cs4 =>
  candBind (yearCand cs4) fun y cs5 => [(⟨y, m, d⟩, cs5)]

/-- Format `"%Y-%m-%d"`. -/
def fmtISO (cs : List Char) : List (YMD × List Char) :=
  candBind (yearCand cs) fun y cs1 =>
  candBind (litCand '-' cs1) fun _ cs2 =>
  candBind (numCand 1 12 cs2) fun m cs3 =>
  candBind (litCand '-' cs3) fun _ cs4 =>
  candBind (numCand 1 31 cs4) fun d cs5 => [(⟨y, m, d⟩, cs5)]

/-- Format `"%d-%m-%Y"`. -/
def fmtDMY (cs : List Char) : List (YMD × List Char) :=
  candBind (numCand 1 31 cs) fun d cs1 =>
  candBind (litCand '-' cs1) fun _ cs2 =>
  candBind (numCand 1 12 cs2) fun m cs3 =>
  candBind (litCand '-' cs3) fun _ cs4 =>
  candBind (yearCand cs4) fun y cs5 => [(⟨y, m, d⟩, cs5)]

/-- Format `"%d/%m/%Y"`. -/
def fmtDMYslash (cs : List Char) : List (YMD × List Char) :=
  candBind (numCand 1 31 cs) fun d cs1 =>
  candBind (litCand '/' cs1) fun _ cs2 =>
  candBind (numCand 1 12 cs2) fun m cs3 =>
  candBind (litCand '/' cs3) fun _ cs4 =>
  candBind (yearCand cs4) fun y cs5 => [(⟨y, m, d⟩, cs5)]

/-- Format `"%d-%b-%Y"`. -/
def fmtDbYdash (cs : List Char) : List (YMD × List Char) :=
  candBind (numCand 1 31 cs) fun d cs1 =>
  candBind (litCand '-' cs1) fun _ cs2 =>
  candBind (bCand cs2) fun m cs3 =>
  candBind (litCand '-' cs3) fun _ cs4 =>
  candBind (yearCand cs4) fun y cs5 => [(⟨y, m, d⟩, cs5)]

/-- Format `"%Y-%m-%d %H:%M:%S"`; the time-of-day is matched and range
checked (seconds below 60, as enforced by `datetime`) but not returned. -/
def fmtISOtime (cs : List Char) : List (YMD × List Char) :=
  candBind (yearCand cs) fun y cs1 =>
  candBind (litCand '-' cs1) fun _ cs2 =>
  candBind (numCand 1 12 cs2) fun m cs3 =>
  candBind (litCand '-' cs3) fun _ cs4 =>
  candBind (numCand 1 31 cs4) fun d cs5 =>
  candBind (litCand ' ' cs5) fun _ cs6 =>
  candBind (numCand 0 23 cs6) fun _ cs7 =>
  candBind (litCand ':' cs7) fun _ cs8 =>
  candBind (numCand 0 59 cs8) fun _ cs9 =>
  candBind (litCand ':' cs9) fun _ cs10 =>
  candBind (numCand 0 61 cs10) fun s cs11 =>
    if s ≤ 59 then [(⟨y, m, d⟩, cs11)] else []

/-- Gregorian leap year, as in `datetime`. -/
def isLeap (y : Nat) : Bool := y % 4 == 0 && (y % 100 != 0 || y % 400 == 0)

/-- Days in a month, as in `datetime`. -/
def daysInMonth (y m : Nat) : Nat :=
  if m == 2 then (if isLeap y then 29 else 28)
  else if m == 4 || m == 6 || m == 9 || m == 11 then 30
  else 31

/-- Validity of a `datetime.date` triple (`MINYEAR = 1`, `MAXYEAR = 9999`). -/
def validYMD (t : YMD) : Bool :=
  1 ≤ t.y && t.y ≤ 9999 && 1 ≤ t.m && t.m ≤ 12 && 1 ≤ t.d && t.d ≤ daysInMonth t.y t.m

/-- Run one format the way `datetime.strptime` does: take the regex's
first (backtracking-order) prefix match, then fail unless the whole
string was consumed and the matched triple is a constructible date. -/
def runFmt (f : List Char → List (YMD × List Char)) (cs : List Char) : Option YMD :=
  match (f cs).head? with
  | some (t, rest) => if rest.isEmpty && validYMD t then some t else none
  | none => none

/-- Try the processor's five formats in their source order, first success
wins (`parse_date` in `corporate_actions_processor.py`). -/
def tryFormats5 (cs : List Char) : Option YMD :=
  (runFmt fmtDBY cs).orElse fun _ =>
  (runFmt fmtISO cs).orElse fun _ =>
  (runFmt fmtDMY cs).orElse fun _ =>
  (runFmt fmtDMYslash cs).orElse fun _ =>
  runFmt fmtDbYdash cs

/-- Try the repair pass's six formats in their source order
(`parse_and_fix_date` in `fix_date_formats.py`). -/
def tryFormats6 (cs : List Char) : Option YMD :=
  (runFmt fmtDBY cs).orElse fun _ =>
  (runFmt fmtISO cs).orElse fun _ =>
  (runFmt fmtDMY cs).orElse fun _ =>
  (runFmt fmtDMYslash cs).orElse fun _ =>
  (runFmt fmtDbYdash cs).orElse fun _ =>
  runFmt fmtISOtime cs

/-- Two-digit zero-padded rendering (`%m`, `%d` of `strftime`). -/
def pad2 (n : Nat) : List Char := [dig (n / 10), dig (n % 10)]

/-- Four-digit zero-padded rendering (`%Y` of `strftime`, per the
documented `0001 … 9999` table). -/
def pad4 (n : Nat) : List Char :=
  [dig (n / 1000), dig (n / 100 % 10), dig (n / 10 % 10), dig (n % 10)]

/-- `dt.strftime('%Y-%m-%d')`. -/
def canonChars (t : YMD) : List Char :=
  pad4 t.y ++ ('-' :: (pad2 t.m ++ ('-' :: pad2 t.d)))

/-- Canonical `YYYY-MM-DD` string of a date. -/
def canonStr (t : YMD) : String := String.mk (canonChars t)

/-- Fast-path test of both date helpers: the raw value is exactly 10
characters long with dashes at indices 4 and 7. -/
def tenDash (s : String) : Bool :=
  s.length == 10 && s.data.get? 4 == some '-' && s.data.get? 7 == some '-'

/-- `parse_date` from `corporate_actions_processor.py`: sentinel and empty
values map to `none`; otherwise the five formats are tried in order on the
stripped value; if all fail, a 10-character dashed value is returned
as-is, and anything else maps to `none` (after a logged warning). -/
def parse_date (s : String) : Option String :=
  if s = "" ∨ s = "N.A." then none
  else
    match tryFormats5 (pyStrip s.data) with
    | some t => some (canonStr t)
    | none => if tenDash s then some s else none

/-- `parse_and_fix_date` from `fix_date_formats.py`: sentinel and empty
values map to `none`; a 10-character dashed value that `strptime`
validates against `%Y-%m-%d` is returned as-is; otherwise six formats are
tried in order on the stripped value and re-rendered canonically; a value
nothing parses is returned as-is. -/
def parse_and_fix_date (s : String) : Option String :=
  if s = "" ∨ s = "N.A." then none
  else if tenDash s && (runFmt fmtISO s.data).isSome then some s
  else
    match tryFormats6 (pyStrip s.data) with
    | some t => some (canonStr t)
    | none => some s

/-! ### The five raw encodings of a calendar day

These renderings follow the specification's list of supported encodings
(day unpadded as in the raw feeds, month and year zero-padded where the
encoding is numeric). -/

/-- Day-of-month as the feeds print it: one digit for 1–9, two otherwise. -/
def dayChars (d : Nat) : List Char :=
  if d < 10 then [dig d] else [dig (d / 10), dig (d % 10)]

/-- Capitalized three-letter month abbreviation for months 1–12. -/
def monAbbr : Nat → List Char
  | 1 => ['J', 'a', 'n'] | 2 => ['F', 'e', 'b'] | 3 => ['M', 'a', 'r']
  | 4 => ['A', 'p', 'r'] | 5 => ['M', 'a', 'y'] | 6 => ['J', 'u', 'n']
  | 7 => ['J', 'u', 'l'] | 8 => ['A', 'u', 'g'] | 9 => ['S', 'e', 'p']
  | 10 => ['O', 'c', 't'] | 11 => ['N', 'o', 'v'] | 12 => ['D', 'e', 'c']
  | _ => []

/-- Encoding `day month-name year`, e.g. `"17 Oct 2025"`. -/
def encDBY (t : YMD) : String :=
  String.mk (dayChars t.d ++ (' ' :: (monAbbr t.m ++ (' ' :: pad4 t.y))))

/-- Encoding `YYYY-MM-DD`, e.g. `"2025-10-17"`. -/
def encISO (t : YMD) : String :=
  String.mk (canonChars t)

/-- Encoding `day-MM-YYYY`, e.g. `"17-10-2025"`. -/
def encDMY (t : YMD) : String :=
  String.mk (dayChars t.d ++ ('-' :: (pad2 t.m ++ ('-' :: pad4 t.y))))

/-- Encoding `day/MM/YYYY`, e.g. `"17/10/2025"`. -/
def encDMYslash (t : YMD) : String :=
  String.mk (dayChars t.d ++ ('/' :: (pad2 t.m ++ ('/' :: pad4 t.y))))

/-- Encoding `day-month-abbr-YYYY`, e.g. `"17-Oct-2025"`. -/
def encDbYdash (t : YMD) : String :=
  String.mk (dayChars t.d ++ ('-' :: (monAbbr t.m ++ ('-' :: pad4 t.y))))

/-! ### Data model (`models.py`) and the record normalizers -/

/-- The result dict built by the Alfago client for one resolved company
(values read with `sec.get(...)`, hence individually optional). -/
structure SecInfo where
  security_id : Option Nat
  symbol : Option String
  isin : Option String
  market_code : Option String
  company_name : Option String
  deriving DecidableEq, Repr

/-- One stored `corporate_actions` row (`models.CorporateAction`).
Float columns are `Rat` (see the header note); `split_ratio` keeps the
numerator/denominator pair that Python renders as `"num:den"`. -/
structure CorporateAction where
  company_name : String
  security_id : Option Nat := none
  market_code : String
  symbol : Option String := none
  isin : Option String := none
  action_type : String
  announcement_date : Option String := none
  ex_date : Option String := none
  record_date : Option String := none
  final_date : Option String := none
  dividend_rate : Option Rat := none
  dividend_type : Option String := none
  ratio_numerator : Option Rat := none
  ratio_denominator : Option Rat := none
  split_ratio : Option (Rat × Rat) := none
  rights_ratio_numerator : Option Rat := none
  rights_ratio_denominator : Option Rat := none
  rights_price : Option Rat := none
  security_type : Option String := none
  raw_data : List String := []
  deriving DecidableEq, Repr

/-- `float(x) if x and x != 'N.A.' else None` under the abstract
conversion `pf`; the outer `none` models `float(x)` raising `ValueError`
(which makes the enclosing `except` skip the whole row). -/
def optFloat (pf : String → Option Rat) (x : String) : Option (Option Rat) :=
  if x = "" ∨ x = "N.A." then some none
  else match pf x with
       | some v => some (some v)
       | none => none

/-- One row of `process_bonus_data`: columns
`[company, isin, security_type, announce, ex, num, den]`, at least 7
required; `none` when the row is skipped. -/
def bonusRow (pf : String → Option Rat) (smap : String → Option SecInfo)
    (market : String) (row : List String) : Option CorporateAction :=
  match row with
  | company :: isin :: security_type :: ad :: xd :: rn :: rd :: _ =>
    match optFloat pf rn, optFloat pf rd with
    | some rnV, some rdV =>
      let exd := if xd = "" then none else parse_date xd
      some { company_name := company
             security_id := (smap company).bind (·.security_id)
             market_code := market
             symbol := (smap company).bind (·.symbol)
             isin := if isin = "N.A." then none else some isin
             action_type := "bonus"
             announcement_date := if ad = "" then none else parse_date ad
             ex_date := exd
             final_date := exd
             ratio_numerator := rnV
             ratio_denominator := rdV
             security_type := some security_type
             raw_data := row }
    | _, _ => none
  | _ => none

/-- One row of `process_dividend_data`: columns
`[company, announce, ex, rate, type, record]`, at least 6 required. -/
def dividendRow (pf : String → Option Rat) (smap : String → Option SecInfo)
    (market : String) (row : List String) : Option CorporateAction :=
  match row with
  | company :: ad :: xd :: rate :: dtype :: rdate :: _ =>
    match optFloat pf rate with
    | some rateV =>
      let exd := if xd = "" then none else parse_date xd
      some { company_name := company
             security_id := (smap company).bind (·.security_id)
             market_code := market
             symbol := (smap company).bind (·.symbol)
             isin := (smap company).bind (·.isin)
             action_type := "dividend"
             announcement_date := if ad = "" then none else parse_date ad
             ex_date := exd
             record_date := if rdate = "" then none else parse_date rdate
             final_date := exd
             dividend_rate := rateV
             dividend_type := some dtype
             raw_data := row }
    | none => none
  | _ => none

/-- One row of `process_split_data`: columns
`[company, capital_issue_type, security_type, announce, ex, num, den, ...]`,
at least 7 required; only the first 7 are consumed.  The derived
`split_ratio` is present only when both sides are present and nonzero
(Python float truthiness). -/
def splitRow (pf : String → Option Rat) (smap : String → Option SecInfo)
    (market : String) (row : List String) : Option CorporateAction :=
  match row with
  | company :: _ :: _ :: ad :: xd :: rn :: rd :: _ =>
    match optFloat pf rn, optFloat pf rd with
    | some rnV, some rdV =>
      let exd := parse_date xd
      some { company_name := company
             security_id := (smap company).bind (·.security_id)
             market_code := market
             symbol := (smap company).bind (·.symbol)
             isin := (smap company).bind (·.isin)
             action_type := "split"
             announcement_date := parse_date ad
             ex_date := exd
             final_date := exd
             ratio_numerator := rnV
             ratio_denominator := rdV
             split_ratio :=
               match rnV, rdV with
               | some a, some b =>
                 if a ≠ 0 ∧ b ≠ 0 then some (a, b) else none
               | _, _ => none
             raw_data := row }
    | _, _ => none
  | _ => none

/-- One row of `process_rights_data`: columns
`[company, issue_type, _, announce, ex, _, price, num, den]`, at least 9
required; the ISIN is not present in this dataset. -/
def rightsRow (pf : String → Option Rat) (smap : String → Option SecInfo)
    (market : String) (row : List String) : Option CorporateAction :=
  match row with
  | company :: _ :: _ :: ad :: xd :: _ :: price :: rn :: rd :: _ =>
    match optFloat pf rn, optFloat pf rd, optFloat pf price with
    | some rnV, some rdV, some priceV =>
      let exd := if xd = "" ∨ xd = "N.A." then none else parse_date xd
      some { company_name := company
             security_id := (smap company).bind (·.security_id)
             market_code := market
             symbol := (smap company).bind (·.symbol)
             isin := none
             action_type := "rights"
             announcement_date :=
               if ad = "" ∨ ad = "N.A." then none else parse_date ad
             ex_date := exd
             final_date := exd
             rights_ratio_numerator := rnV
             rights_ratio_denominator := rdV
             rights_price := priceV
             raw_data := row }
    | _, _, _ => none
  | _ => none

/-- The dedup existence check: a stored record matching
`(company_name, action_type, market_code, ex_date)`. -/
def existsKey (db : List CorporateAction) (company atype market : String)
    (exd : Option String) : Bool :=
  db.any fun r =>
    r.company_name == company && r.action_type == atype &&
    r.market_code == market && r.ex_date == exd

/-- One iteration of a normalizer loop: skip unparseable rows, skip rows
whose dedup key already exists, otherwise add the record and count it. -/
def procStep (rowFn : List String → Option CorporateAction)
    (st : List CorporateAction × Nat) (row : List String) :
    List CorporateAction × Nat :=
  match rowFn row with
  | none => st
  | some a =>
    if existsKey st.1 a.company_name a.action_type a.market_code a.ex_date
    then st
    else (st.1 ++ [a], st.2 + 1)

/-- Row loop of `process_bonus_data` over the parsed rows, returning the
stored records and the number added. -/
def process_bonus_rows (pf : String → Option Rat)
    (smap : String → Option SecInfo) (market : String)
    (db : List CorporateAction) (rows : List (List String)) :
    List CorporateAction × Nat :=
  rows.foldl (procStep (bonusRow pf smap market)) (db, 0)

/-- Row loop of `process_dividend_data`. -/
def process_dividend_rows (pf : String → Option Rat)
    (smap : String → Option SecInfo) (market : String)
    (db : List CorporateAction) (rows : List (List String)) :
    List CorporateAction × Nat :=
  rows.foldl (procStep (dividendRow pf smap market)) (db, 0)

/-- Row loop of `process_split_data`. -/
def process_split_rows (pf : String → Option Rat)
    (smap : String → Option SecInfo) (market : String)
    (db : List CorporateAction) (rows : List (List String)) :
    List CorporateAction × Nat :=
  rows.foldl (procStep (splitRow pf smap market)) (db, 0)

/-- Row loop of `process_rights_data`. -/
def process_rights_rows (pf : String → Option Rat)
    (smap : String → Option SecInfo) (market : String)
    (db : List CorporateAction) (rows : List (List String)) :
    List CorporateAction × Nat :=
  rows.foldl (procStep (rightsRow pf smap market)) (db, 0)

/-! ### File-level orchestration (`parse_json_file`, `process_all_files`) -/

/-- Content of one staged file, at the granularity the code
distinguishes: `malformed` means `json.load` raises; `other` means valid
JSON that is not a dict carrying both `head` and `data`. -/
inductive RawFile
  | malformed
  | other
  | headData (headers : List String) (rows : List (List String))
  deriving DecidableEq, Repr

/-- `parse_json_file`: propagates the `json.load` exception, returns
`none` (Python `None`) for JSON without the expected structure, and the
headers/rows pair otherwise. -/
def parse_json_file : RawFile → Except Unit (Option (List String × List (List String)))
  | .malformed => .error ()
  | .other => .ok none
  | .headData h r => .ok (some (h, r))

/-- `process_bonus_data` at file level: an unstructured file is skipped
with count 0, a malformed file propagates its exception. -/
def process_bonus_data (pf : String → Option Rat)
    (smap : String → Option SecInfo) (fc : RawFile) (market : String)
    (db : List CorporateAction) : Except Unit (List CorporateAction × Nat) :=
  match parse_json_file fc with
  | .error e => .error e
  | .ok none => .ok (db, 0)
  | .ok (some (_, rows)) => .ok (process_bonus_rows pf smap market db rows)

/-- `process_dividend_data` at file level. -/
def process_dividend_data (pf : String → Option Rat)
    (smap : String → Option SecInfo) (fc : RawFile) (market : String)
    (db : List CorporateAction) : Except Unit (List CorporateAction × Nat) :=
  match parse_json_file fc with
  | .error e => .error e
  | .ok none => .ok (db, 0)
  | .ok (some (_, rows)) => .ok (process_dividend_rows pf smap market db rows)

/-- `process_split_data` at file level. -/
def process_split_data (pf : String → Option Rat)
    (smap : String → Option SecInfo) (fc : RawFile) (market : String)
    (db : List CorporateAction) : Except Unit (List CorporateAction × Nat) :=
  match parse_json_file fc with
  | .error e => .error e
  | .ok none => .ok (db, 0)
  | .ok (some (_, rows)) => .ok (process_split_rows pf smap market db rows)

/-- `process_rights_data` at file level. -/
def process_rights_data (pf : String → Option Rat)
    (smap : String → Option SecInfo) (fc : RawFile) (market : String)
    (db : List CorporateAction) : Except Unit (List CorporateAction × Nat) :=
  match parse_json_file fc with
  | .error e => .error e
  | .ok none => .ok (db, 0)
  | .ok (some (_, rows)) => .ok (process_rights_rows pf smap market db rows)

/-- Does the pattern occur at the start of the character list? -/
def leadsWith : List Char → List Char → Bool
  | [], _ => true
  | _ :: _, [] => false
  | p :: ps, c :: cs => p == c && leadsWith ps cs

/-- Does the pattern occur anywhere inside the character list
(Python `pattern in name`)? -/
def segIn (p : List Char) : List Char → Bool
  | [] => leadsWith p []
  | c :: cs => leadsWith p (c :: cs) || segIn p cs

/-- Does the list end with the given suffix (Python `str.endswith`)? -/
def endsWithB (suf s : List Char) : Bool :=
  leadsWith suf.reverse s.reverse

/-- The file matching of `process_all_files`:
`f.endswith('.json') and file_pattern.lower() in f.lower()` (the seven
pattern tokens are already lowercase). -/
def matchesHandler (pattern name : String) : Bool :=
  endsWithB (".json".data) name.data &&
  segIn pattern.data (name.data.map lowc)

/-- The seven dataset handlers of `process_all_files`, in source order. -/
inductive ActionKind
  | bonus
  | dividend
  | splits
  | rights
  deriving DecidableEq, Repr

/-- The `file_handlers` table. -/
def file_handlers : List (String × ActionKind × String) :=
  [("bonus_nse", .bonus, "NSE"), ("bonus_bse", .bonus, "BSE"),
   ("dividend_nse", .dividend, "NSE"), ("dividend_bse", .dividend, "BSE"),
   ("splits_nse", .splits, "NSE"), ("splits_bse", .splits, "BSE"),
   ("rights_nse", .rights, "NSE")]

/-- Dispatch one file to the handler of its kind. -/
def runHandler (pf : String → Option Rat) (smap : String → Option SecInfo) :
    ActionKind → RawFile → String → List CorporateAction →
    Except Unit (List CorporateAction × Nat)
  | .bonus => process_bonus_data pf smap
  | .dividend => process_dividend_data pf smap
  | .splits => process_split_data pf smap
  | .rights => process_rights_data pf smap

/-- Process, for one handler, every staged file that matched its pattern,
threading the store and accumulating the inserted count. -/
def processFilesFor (pf : String → Option Rat)
    (smap : String → Option SecInfo) (kind : ActionKind) (market : String) :
    List (String × RawFile) → List CorporateAction →
    Except Unit (List CorporateAction × Nat)
  | [], db => .ok (db, 0)
  | (_, fc) :: rest, db =>
    match runHandler pf smap kind fc market db with
    | .error e => .error e
    | .ok (db', c) =>
      match processFilesFor pf smap kind market rest db' with
      | .error e => .error e
      | .ok (db'', c') => .ok (db'', c + c')

/-- Association update for the stats dict. -/
def setStat : List (String × Nat) → String → Nat → List (String × Nat)
  | [], k, v => [(k, v)]
  | (k', v') :: rest, k, v =>
    if k' = k then (k, v) :: rest else (k', v') :: setStat rest k v

/-- `stats.get(key, 0)`. -/
def getStat (stats : List (String × Nat)) (k : String) : Nat :=
  match List.lookup k stats with
  | some v => v
  | none => 0

/-- Loop of `process_all_files` over the handler table. -/
def processHandlers (pf : String → Option Rat)
    (smap : String → Option SecInfo) (files : List (String × RawFile)) :
    List (String × ActionKind × String) → List CorporateAction →
    List (String × Nat) →
    Except Unit (List (String × Nat) × List CorporateAction)
  | [], db, stats => .ok (stats, db)
  | (pattern, kind, market) :: hs, db, stats =>
    match files.filter fun p => matchesHandler pattern p.1 with
    | [] => processHandlers pf smap files hs db stats
    | jfiles =>
      match processFilesFor pf smap kind market jfiles db with
      | .error e => .error e
      | .ok (db', c) =>
        let key := pattern ++ "_" ++ market
        processHandlers pf smap files hs db'
          (setStat stats key (getStat stats key + c))

/-- `process_all_files` over the staged files: returns the per-pattern
count summary and the final store, or propagates a handler exception. -/
def process_all_files (pf : String → Option Rat)
    (smap : String → Option SecInfo) (files : List (String × RawFile))
    (db : List CorporateAction) :
    Except Unit (List (String × Nat) × List CorporateAction) :=
  processHandlers pf smap files file_handlers db []

/-! ### Identifier resolver (`alfago_client.py`) -/

/-- One element of the Alfago `data` array (fields via `sec.get`). -/
structure SecRec where
  id : Option Nat
  symbol1 : Option String
  symbol2 : Option String
  isin : Option String
  market_code1 : Option String
  market_code2 : Option String
  company_name : Option String
  deriving DecidableEq, Repr

/-- The observable outcome of the HTTP GET for one company. -/
inductive AlfagoResponse
  | timeout
  | exc
  | resp (status : Nat) (jsonCT : Bool) (body : Option (String × List SecRec))
  deriving DecidableEq, Repr

/-- Python `a or b` on optional strings (absent and empty are falsy). -/
def pyOrS (a b : Option String) : Option String :=
  match a with
  | some s => if s = "" then b else some s
  | none => b

/-- Python truthiness of the optional market-code argument. -/
def pyTruthyS : Option String → Bool
  | some s => s ≠ ""
  | none => false

/-- `f"{company_name}_{market_code or 'ANY'}"`. -/
def cacheKey (company : String) (mk : Option String) : String :=
  company ++ "_" ++
    (match mk with
     | some s => if s = "" then "ANY" else s
     | none => "ANY")

/-- First record whose `market_code1` or `market_code2` equals the
requested market. -/
def firstMarketMatch (mk : String) : List SecRec → Option SecRec
  | [] => none
  | sec :: rest =>
    if sec.market_code1 = some mk ∨ sec.market_code2 = some mk then some sec
    else firstMarketMatch mk rest

/-- The network-and-selection part of `fetch_security_id` (everything
except the cache): absent for a timeout, any exception, a non-200 status,
a non-JSON content type, an unparseable body, a non-success envelope or
an empty data array; otherwise the market-matched record if a truthy
market hint matches one, else the first record. -/
def processResp (resp : AlfagoResponse) (mk : Option String) : Option SecInfo :=
  match resp with
  | .timeout => none
  | .exc => none
  | .resp status jsonCT body =>
    if status ≠ 200 then none
    else if ¬ jsonCT then none
    else
      match body with
      | none => none
      | some (st, recs) =>
        if st ≠ "success" ∨ recs = [] then none
        else
          match
            (match mk with
             | some mkv =>
               if mkv ≠ "" then
                 match firstMarketMatch mkv recs with
                 | some sec => some (sec, mkv)
                 | none => none
               else none
             | none => none) with
          | some (sec, mkv) =>
            some { security_id := sec.id
                   symbol := pyOrS sec.symbol1 sec.symbol2
                   isin := sec.isin
                   market_code := some mkv
                   company_name := sec.company_name }
          | none =>
            match recs with
            | sec :: _ =>
              some { security_id := sec.id
                     symbol := pyOrS sec.symbol1 sec.symbol2
                     isin := sec.isin
                     market_code := pyOrS sec.market_code1
                       (pyOrS sec.market_code2 mk)
                     company_name := sec.company_name }
            | [] => none

/-- Association overwrite for the module cache dict. -/
def cacheSet : List (String × SecInfo) → String → SecInfo →
    List (String × SecInfo)
  | [], k, v => [(k, v)]
  | (k', v') :: rest, k, v =>
    if k' = k then (k, v) :: rest else (k', v') :: cacheSet rest k v

/-- `fetch_security_id` with the module cache made explicit.  The third
component records whether the lookup service was queried.  Only a
successful resolution is written to the cache (source lines 61 and 77);
every `return None` path leaves it untouched. -/
def fetch_security_id (lookup : String → AlfagoResponse) (company : String)
    (mk : Option String) (cache : List (String × SecInfo)) :
    Option SecInfo × List (String × SecInfo) × Bool :=
  let key := cacheKey company mk
  match List.lookup key cache with
  | some v => (some v, cache, false)
  | none =>
    match processResp (lookup company) mk with
    | some r => (some r, cacheSet cache key r, true)
    | none => (none, cache, true)

/-- `fetch_security_batch`: resolve each name in order, inserting found
results into the map and omitting the rest; returns the map and the final
cache. -/
def fetch_security_batch (lookup : String → AlfagoResponse)
    (names : List String) (mk : Option String)
    (cache : List (String × SecInfo)) :
    List (String × SecInfo) × List (String × SecInfo) :=
  match names with
  | [] => ([], cache)
  | n :: rest =>
    match fetch_security_id lookup n mk cache with
    | (r, cache', _) =>
      match fetch_security_batch lookup rest mk cache' with
      | (m, cache'') =>
        (match r with
         | some info => (n, info) :: m
         | none => m, cache'')

/-! ### Batch transport poll loop (`prowess_client.get_batch`) -/

/-- The observable content of one poll response. -/
structure PollResult where
  jsonCT : Bool
  zipSig : Bool
  names : List String
  elapsed : Nat
  deriving DecidableEq, Repr

/-- Staged path for one archive entry, or `none` for a manifest
(`.lst`) entry that is skipped. -/
def extractEntry (name : String) : Option String :=
  if endsWithB (".lst".data) (name.data.map lowc) then none
  else some (String.mk (("./tmp/").data ++
    ((name.data.reverse.takeWhile fun c => c != '/').reverse)))

/-- All staged paths extracted from a completed archive. -/
def extract_files (names : List String) : List String :=
  names.filterMap extractEntry

/-- `get_batch` as a fuelled loop over the abstract poll sequence: a
response that is not JSON and starts with the ZIP signature completes the
call; otherwise, strictly more than `timeout` seconds elapsed raises
`TimeoutError`; otherwise the loop sleeps and re-polls.  `none` means the
fuel ran out with the loop still running. -/
def get_batch (polls : Nat → PollResult) (timeout : Nat) :
    Nat → Nat → Option (Except Unit (List String))
  | 0, _ => none
  | fuel + 1, i =>
    let p := polls i
    if !p.jsonCT && p.zipSig then some (.ok (extract_files p.names))
    else if timeout < p.elapsed then some (.error ())
    else get_batch polls timeout fuel (i + 1)

/-! ### Retention sweeper (`daily_updater_new.cleanup_old_records`) -/

/-- The previous calendar day. -/
def prevDay : YMD → YMD
  | ⟨y, m, d⟩ =>
    if 2 ≤ d then ⟨y, m, d - 1⟩
    else if 2 ≤ m then ⟨y, m - 1, daysInMonth y (m - 1)⟩
    else ⟨y - 1, 12, 31⟩

/-- `now - timedelta(days=n)` on the date part. -/
def subDays : Nat → YMD → YMD
  | 0, t => t
  | n + 1, t => prevDay (subDays n t)

/-- Lexicographic strict comparison on character lists: the string
comparison the relational store applies to the `final_date` column. -/
def listLtB : List Char → List Char → Bool
  | [], [] => false
  | [], _ :: _ => true
  | _ :: _, [] => false
  | a :: as, b :: bs => if a < b then true else if b < a then false else listLtB as bs

/-- Is the record older than the cutoff (string comparison against a
present `final_date`; an absent one never compares below)? -/
def isOld (cutoff : String) (r : CorporateAction) : Bool :=
  match r.final_date with
  | some fd => listLtB fd.data cutoff.data
  | none => false

/-- Strict order on date triples (year, then month, then day). -/
def dateLt (a b : YMD) : Prop :=
  a.y < b.y ∨ (a.y = b.y ∧ (a.m < b.m ∨ (a.m = b.m ∧ a.d < b.d)))

/-- `cleanup_old_records`: delete every record whose `final_date` is
strictly below `(now - days_old days).strftime('%Y-%m-%d')` and report
how many were deleted. -/
def cleanup_old_records (days_old : Nat) (now : YMD)
    (db : List CorporateAction) : List CorporateAction × Nat :=
  let cutoff := canonStr (subDays days_old now)
  (db.filter fun r => ! isOld cutoff r, (db.filter (isOld cutoff)).length)

/-! ### Date repair pass record update (`fix_database_dates`) -/

/-- New value of one date column: untouched when absent or empty (Python
falsy), otherwise replaced by `parse_and_fix_date` whenever that
differs. -/
def fixField (x : Option String) : Option String :=
  match x with
  | none => none
  | some s => if s = "" then some s else parse_and_fix_date s

/-- The per-record body of the `fix_database_dates` loop. -/
def fixDates (r : CorporateAction) : CorporateAction :=
  { r with announcement_date := fixField r.announcement_date
           ex_date := fixField r.ex_date
           record_date := fixField r.record_date
           final_date := fixField r.final_date }

/-- A date column value that is already canonical: absent, or the
canonical rendering of a constructible calendar day. -/
def canonicalField (x : Option String) : Prop :=
  x = none ∨ ∃ t : YMD, validYMD t = true ∧ x = some (canonStr t)

/-! ### Basic lemmas about digits and matching primitives -/

theorem toNat_dig {n : Nat} (h : n < 10) : (dig n).toNat = 48 + n := by
  have hv : (48 + n).isValidChar := Or.inl (by omega)
  simp only [dig, Char.ofNat, hv, dite_true, Char.ofNatAux, Char.toNat,
    UInt32.toNat, dif_pos]
  simp

theorem isDig_dig {n : Nat} (h : n < 10) : isDig (dig n) = true := by
  simp only [isDig, toNat_dig h, Bool.and_eq_true, decide_eq_true_eq]
  omega

theorem dval_dig {n : Nat} (h : n < 10) : dval (dig n) = n := by
  simp only [dval, toNat_dig h]
  omega

theorem dig_ne {n : Nat} (h : n < 10) {c : Char}
    (hc : c.toNat < 48 ∨ 57 < c.toNat) : dig n ≠ c := by
  intro he
  have := toNat_dig h
  rw [he] at this
  omega

theorem isDig_false_of_lt {c : Char} (hc : c.toNat < 48 ∨ 57 < c.toNat) :
    isDig c = false := by
  simp only [isDig, Bool.and_eq_false_iff, decide_eq_false_iff_not]
  omega

theorem ne_of_isDig {c l : Char} (hc : isDig c = true)
    (hl : l.toNat < 48 ∨ 57 < l.toNat) : c ≠ l := by
  intro he
  simp only [isDig, Bool.and_eq_true, decide_eq_true_eq] at hc
  rw [he] at hc
  omega

@[simp] theorem candBind_nil {α β : Type} (f : α → List Char → List (β × List Char)) :
    candBind [] f = [] := rfl

@[simp] theorem candBind_cons {α β : Type} (a : α) (r : List Char)
    (xs : List (α × List Char)) (f : α → List Char → List (β × List Char)) :
    candBind ((a, r) :: xs) f = f a r ++ candBind xs f := by
  simp [candBind]

theorem candBind_eq_nil {α β : Type} {xs : List (α × List Char)}
    {f : α → List Char → List (β × List Char)}
    (h : ∀ p ∈ xs, f p.1 p.2 = []) : candBind xs f = [] := by
  induction xs with
  | nil => rfl
  | cons p xs ih =>
    obtain ⟨a, r⟩ := p
    rw [candBind_cons, h ⟨a, r⟩ (by simp), List.nil_append]
    exact ih fun q hq => h q (by simp [hq])

theorem litCand_pos (l : Char) (rest : List Char) :
    litCand l (l :: rest) = [((), rest)] := by
  simp [litCand]

theorem litCand_neg {c l : Char} (h : c ≠ l) (rest : List Char) :
    litCand l (c :: rest) = [] := by
  simp [litCand, h]

/-- Two-digit match followed by the backtracking one-digit match. -/
theorem numCand_dd {lo hi a b : Nat} (ha : a < 10) (hb : b < 10)
    (hlo : lo ≤ 10 * a + b) (hhi : 10 * a + b ≤ hi) (hlo1 : lo ≤ a)
    (rest : List Char) :
    numCand lo hi (dig a :: dig b :: rest) =
      [(10 * a + b, rest), (a, dig b :: rest)] := by
  simp [numCand, isDig_dig ha, isDig_dig hb, dval_dig ha, dval_dig hb, hlo, hhi, hlo1]

/-- Two-digit match whose one-digit fallback is out of range. -/
theorem numCand_dd0 {lo hi a b : Nat} (ha : a < 10) (hb : b < 10)
    (hlo : lo ≤ 10 * a + b) (hhi : 10 * a + b ≤ hi) (hlo1 : ¬ lo ≤ a)
    (rest : List Char) :
    numCand lo hi (dig a :: dig b :: rest) = [(10 * a + b, rest)] := by
  simp [numCand, isDig_dig ha, isDig_dig hb, dval_dig ha, dval_dig hb, hlo, hhi, hlo1]

/-- One-digit match when the next character is not a digit. -/
theorem numCand_dx {lo hi a : Nat} (ha : a < 10) (hlo : lo ≤ a) {c : Char}
    (hc : isDig c = false) (rest : List Char) :
    numCand lo hi (dig a :: c :: rest) = [(a, c :: rest)] := by
  simp [numCand, isDig_dig ha, dval_dig ha, hlo, hc]

/-- No match when the first character is not a digit. -/
theorem numCand_nodig {lo hi : Nat} {c : Char} (hc : isDig c = false) :
    ∀ rest, numCand lo hi (c :: rest) = [] := by
  intro rest
  match rest with
  | [] => simp [numCand, hc]
  | c2 :: rest => simp [numCand, hc]

/-- Every candidate of a two-digit-headed match leaves a digit in front of
the remaining input (used to refute a following literal). -/
theorem numCand_rest_digit {lo hi : Nat} {c1 c2 c3 : Char} {rest : List Char}
    (h2 : isDig c2 = true) (h3 : isDig c3 = true) :
    ∀ p ∈ numCand lo hi (c1 :: c2 :: c3 :: rest),
      ∃ d ds, p.2 = d :: ds ∧ isDig d = true := by
  intro p hp
  simp only [numCand] at hp
  rcases List.mem_append.1 hp with h | h
  · split at h
    · simp only [List.mem_singleton] at h
      exact ⟨c3, rest, by simp [h], h3⟩
    · simp at h
  · split at h
    · simp only [List.mem_singleton] at h
      exact ⟨c2, c3 :: rest, by simp [h], h2⟩
    · simp at h

theorem yearCand_pad4 {y : Nat} (hy : y ≤ 9999) (rest : List Char) :
    yearCand (pad4 y ++ rest) = [(y, rest)] := by
  have h1 : y / 1000 < 10 := by omega
  have h2 : y / 100 % 10 < 10 := by omega
  have h3 : y / 10 % 10 < 10 := by omega
  have h4 : y % 10 < 10 := by omega
  simp only [pad4, List.cons_append, List.nil_append, yearCand,
    isDig_dig h1, isDig_dig h2, isDig_dig h3, isDig_dig h4,
    dval_dig h1, dval_dig h2, dval_dig h3, dval_dig h4, Bool.and_self,
    if_true]
  have : ((y / 1000 * 10 + y / 100 % 10) * 10 + y / 10 % 10) * 10 + y % 10 = y := by
    omega
  rw [this]

theorem dropWhile_eq_self_of_head {cs : List Char}
    (h : ∀ c, cs.head? = some c → isSp c = false) :
    cs.dropWhile isSp = cs := by
  cases cs with
  | nil => rfl
  | cons c t =>
    rw [List.dropWhile_cons_of_neg]
    simp [h c rfl]

theorem pyStrip_eq_self {cs : List Char}
    (h1 : ∀ c, cs.head? = some c → isSp c = false)
    (h2 : ∀ c, cs.getLast? = some c → isSp c = false) :
    pyStrip cs = cs := by
  unfold pyStrip
  rw [dropWhile_eq_self_of_head h1]
  rw [dropWhile_eq_self_of_head (by simpa using h2)]
  exact cs.reverse_reverse

theorem isSp_false_of_isDig {c : Char} (h : isDig c = true) : isSp c = false := by
  simp only [isDig, Bool.and_eq_true, decide_eq_true_eq] at h
  simp only [isSp, Bool.or_eq_false_iff, Bool.and_eq_false_iff]
  constructor
  · simp only [beq_eq_false_iff_ne, ne_eq]
    omega
  · right
    simp only [decide_eq_false_iff_not]
    omega

theorem bCand_abbr {m : Nat} (h1 : 1 ≤ m) (h2 : m ≤ 12) (rest : List Char) :
    bCand (monAbbr m ++ rest) = [(m, rest)] := by
  interval_cases m <;> simp +decide [monAbbr, bCand, lowc, monNum]

theorem daysInMonth_le (y m : Nat) : daysInMonth y m ≤ 31 := by
  unfold daysInMonth
  split <;> [split <;> omega; skip]
  split <;> omega

theorem validYMD_bounds {t : YMD} (h : validYMD t = true) :
    1 ≤ t.y ∧ t.y ≤ 9999 ∧ 1 ≤ t.m ∧ t.m ≤ 12 ∧ 1 ≤ t.d ∧ t.d ≤ 31 := by
  simp only [validYMD, Bool.and_eq_true, decide_eq_true_eq] at h
  have := daysInMonth_le t.y t.m
  omega

theorem runFmt_head {f : List Char → List (YMD × List Char)} {cs : List Char}
    {t : YMD} {junk : List (YMD × List Char)} (hf : f cs = (t, []) :: junk)
    (hv : validYMD t = true) : runFmt f cs = some t := by
  simp [runFmt, hf, hv]

theorem runFmt_nil {f : List Char → List (YMD × List Char)} {cs : List Char}
    (hf : f cs = []) : runFmt f cs = none := by
  simp [runFmt, hf]

/-- If every day-candidate leaves a character other than the expected
literal in front, the whole format fails. -/
theorem bind_lit_nil {l : Char} {xs : List (Nat × List Char)}
    (h : ∀ p ∈ xs, ∃ c cs, p.2 = c :: cs ∧ c ≠ l)
    (K : Nat → Unit → List Char → List (YMD × List Char)) :
    candBind xs (fun a cs1 => candBind (litCand l cs1) (K a)) = [] := by
  apply candBind_eq_nil
  intro p hp
  obtain ⟨c, cs, hcs, hne⟩ := h p hp
  simp only [hcs, litCand_neg hne, candBind_nil]

/-- Candidate shapes for a rendered day followed by a separator. -/
theorem dayCand_sep_heads {d : Nat} (hd1 : 1 ≤ d) (hd2 : d ≤ 31) {sep : Char}
    (hsd : isDig sep = false) (rest : List Char) :
    ∀ p ∈ numCand 1 31 (dayChars d ++ sep :: rest),
      ∃ c cs, p.2 = c :: cs ∧ (c = sep ∨ isDig c = true) := by
  intro p hp
  by_cases hlt : d < 10
  · rw [dayChars, if_pos hlt] at hp
    rw [List.cons_append, List.nil_append,
      numCand_dx (by omega) (by omega) hsd] at hp
    simp only [List.mem_singleton] at hp
    exact ⟨sep, rest, by simp [hp], Or.inl rfl⟩
  · rw [dayChars, if_neg hlt] at hp
    have hd10 : d / 10 < 10 := by omega
    have hdm : d % 10 < 10 := by omega
    rw [List.cons_append, List.cons_append, List.nil_append,
      numCand_dd hd10 hdm (by omega) (by omega) (by omega)] at hp
    rw [Nat.div_add_mod] at hp
    simp only [List.mem_cons, List.not_mem_nil, or_false] at hp
    rcases hp with hp | hp
    · exact ⟨sep, rest, by rw [hp], Or.inl rfl⟩
    · exact ⟨dig (d % 10), sep :: rest, by rw [hp], Or.inr (isDig_dig hdm)⟩

/-- A format that starts with a day then a literal fails when the actual
separator is neither that literal nor (for the backtracking one-digit
match) a digit equal to it. -/
theorem day_sep_fail {d : Nat} (hd1 : 1 ≤ d) (hd2 : d ≤ 31) {sep l : Char}
    (hsd : isDig sep = false) (hne : sep ≠ l)
    (hld : l.toNat < 48 ∨ 57 < l.toNat) (rest : List Char)
    (K : Nat → Unit → List Char → List (YMD × List Char)) :
    candBind (numCand 1 31 (dayChars d ++ sep :: rest))
      (fun a cs1 => candBind (litCand l cs1) (K a)) = [] := by
  apply bind_lit_nil
  intro p hp
  obtain ⟨c, cs, hcs, hc⟩ := dayCand_sep_heads hd1 hd2 hsd rest p hp
  refine ⟨c, cs, hcs, ?_⟩
  rcases hc with rfl | hdig
  · exact hne
  · exact ne_of_isDig hdig hld

/-- Round trip at the heart of idempotence: `%Y-%m-%d` re-parses a
canonical rendering to the same triple, as the first candidate. -/
theorem fmtISO_canon {t : YMD} (h : validYMD t = true) :
    ∃ junk, fmtISO (canonChars t) = (t, []) :: junk := by
  obtain ⟨hy1, hy2, hm1, hm2, hd1, hd2⟩ := validYMD_bounds h
  obtain ⟨y, m, d⟩ := t
  simp only at hy1 hy2 hm1 hm2 hd1 hd2
  have hm10 : m / 10 < 10 := by omega
  have hmm : m % 10 < 10 := by omega
  have hd10 : d / 10 < 10 := by omega
  have hdm : d % 10 < 10 := by omega
  unfold canonChars fmtISO
  rw [yearCand_pad4 hy2, candBind_cons, candBind_nil, List.append_nil,
    litCand_pos, candBind_cons, candBind_nil, List.append_nil]
  simp only [pad2, List.cons_append, List.nil_append]
  by_cases hmlt : m < 10
  · rw [numCand_dd0 hm10 hmm (by omega) (by omega) (by omega), Nat.div_add_mod,
      candBind_cons, candBind_nil, List.append_nil, litCand_pos,
      candBind_cons, candBind_nil, List.append_nil]
    by_cases hdlt : d < 10
    · rw [numCand_dd0 hd10 hdm (by omega) (by omega) (by omega), Nat.div_add_mod,
        candBind_cons, candBind_nil, List.append_nil]
      exact ⟨[], rfl⟩
    · rw [numCand_dd hd10 hdm (by omega) (by omega) (by omega), Nat.div_add_mod,
        candBind_cons, candBind_cons, candBind_nil, List.append_nil]
      exact ⟨_, rfl⟩
  · rw [numCand_dd hm10 hmm (by omega) (by omega) (by omega), Nat.div_add_mod,
      candBind_cons, candBind_cons, candBind_nil, List.append_nil,
      litCand_pos, candBind_cons, candBind_nil, List.append_nil]
    rw [litCand_neg (dig_ne hmm (Or.inl (by decide))), candBind_nil,
      List.append_nil]
    by_cases hdlt : d < 10
    · rw [numCand_dd0 hd10 hdm (by omega) (by omega) (by omega), Nat.div_add_mod,
        candBind_cons, candBind_nil, List.append_nil]
      exact ⟨[], rfl⟩
    · rw [numCand_dd hd10 hdm (by omega) (by omega) (by omega), Nat.div_add_mod,
        candBind_cons, candBind_cons, candBind_nil, List.append_nil]
      exact ⟨_, rfl⟩

theorem yearCand_pad4' {y : Nat} (hy : y ≤ 9999) :
    yearCand (pad4 y) = [(y, [])] := by
  have := yearCand_pad4 hy []
  rwa [List.append_nil] at this

theorem yearCand_fail {c1 c2 c3 c4 : Char} (rest : List Char)
    (h : isDig c1 = false ∨ isDig c2 = false ∨ isDig c3 = false ∨
      isDig c4 = false) :
    yearCand (c1 :: c2 :: c3 :: c4 :: rest) = [] := by
  simp only [yearCand, ite_eq_right_iff]
  intro hall
  simp only [Bool.and_eq_true] at hall
  rcases h with h | h | h | h <;> rw [h] at hall <;> simp at hall

/-- Consuming a rendered day followed by the expected literal leaves the
continuation applied to the rest, the backtracking candidate dying on the
literal. -/
theorem day_lit_step {d : Nat} (hd1 : 1 ≤ d) (hd2 : d ≤ 31) {l : Char}
    (hl : isDig l = false) (hld : l.toNat < 48 ∨ 57 < l.toNat)
    (rest : List Char) (K : Nat → Unit → List Char → List (YMD × List Char)) :
    candBind (numCand 1 31 (dayChars d ++ l :: rest))
      (fun a cs1 => candBind (litCand l cs1) (K a)) = K d () rest := by
  by_cases hlt : d < 10
  · rw [dayChars, if_pos hlt, List.cons_append, List.nil_append,
      numCand_dx (by omega) (by omega) hl, candBind_cons, candBind_nil,
      List.append_nil, litCand_pos, candBind_cons, candBind_nil,
      List.append_nil]
  · have hd10 : d / 10 < 10 := by omega
    have hdm : d % 10 < 10 := by omega
    rw [dayChars, if_neg hlt, List.cons_append, List.cons_append,
      List.nil_append, numCand_dd hd10 hdm (by omega) (by omega) (by omega),
      Nat.div_add_mod, candBind_cons, candBind_cons, candBind_nil,
      List.append_nil, litCand_pos, candBind_cons, candBind_nil,
      List.append_nil, litCand_neg (dig_ne hdm hld), candBind_nil,
      List.append_nil]

/-- Consuming a zero-padded month followed by the expected literal. -/
theorem mon_lit_step {m : Nat} (hm1 : 1 ≤ m) (hm2 : m ≤ 12) {l : Char}
    (hld : l.toNat < 48 ∨ 57 < l.toNat) (rest : List Char)
    (K : Nat → Unit → List Char → List (YMD × List Char)) :
    candBind (numCand 1 12 (pad2 m ++ l :: rest))
      (fun a cs1 => candBind (litCand l cs1) (K a)) = K m () rest := by
  have hm10 : m / 10 < 10 := by omega
  have hmm : m % 10 < 10 := by omega
  simp only [pad2, List.cons_append, List.nil_append]
  by_cases hlt : m < 10
  · rw [numCand_dd0 hm10 hmm (by omega) (by omega) (by omega), Nat.div_add_mod,
      candBind_cons, candBind_nil, List.append_nil, litCand_pos,
      candBind_cons, candBind_nil, List.append_nil]
  · rw [numCand_dd hm10 hmm (by omega) (by omega) (by omega), Nat.div_add_mod,
      candBind_cons, candBind_cons, candBind_nil, List.append_nil,
      litCand_pos, candBind_cons, candBind_nil, List.append_nil,
      litCand_neg (dig_ne hmm hld), candBind_nil, List.append_nil]

theorem monAbbr_shape {m : Nat} (h1 : 1 ≤ m) (h2 : m ≤ 12) :
    ∃ a b c, monAbbr m = [a, b, c] ∧ isDig a = false := by
  interval_cases m <;> exact ⟨_, _, _, rfl, by decide⟩

/-! ### Parsing each encoding with each format -/

theorem fmtDBY_encDBY {t : YMD} (h : validYMD t = true) :
    fmtDBY (dayChars t.d ++ (' ' :: (monAbbr t.m ++ (' ' :: pad4 t.y)))) =
      [(t, [])] := by
  obtain ⟨hy1, hy2, hm1, hm2, hd1, hd2⟩ := validYMD_bounds h
  rw [fmtDBY, day_lit_step hd1 hd2 (by decide) (by decide)]
  rw [bCand_abbr hm1 hm2, candBind_cons, candBind_nil, List.append_nil,
    litCand_pos, candBind_cons, candBind_nil, List.append_nil,
    yearCand_pad4' hy2, candBind_cons, candBind_nil, List.append_nil]

theorem fmtISO_encISO {t : YMD} (h : validYMD t = true) :
    ∃ junk, fmtISO (canonChars t) = (t, []) :: junk := fmtISO_canon h

theorem fmtDMY_encDMY {t : YMD} (h : validYMD t = true) :
    fmtDMY (dayChars t.d ++ ('-' :: (pad2 t.m ++ ('-' :: pad4 t.y)))) =
      [(t, [])] := by
  obtain ⟨hy1, hy2, hm1, hm2, hd1, hd2⟩ := validYMD_bounds h
  rw [fmtDMY, day_lit_step hd1 hd2 (by decide) (by decide)]
  rw [mon_lit_step hm1 hm2 (by decide)]
  rw [yearCand_pad4' hy2, candBind_cons, candBind_nil, List.append_nil]

theorem fmtDMYslash_encDMYslash {t : YMD} (h : validYMD t = true) :
    fmtDMYslash (dayChars t.d ++ ('/' :: (pad2 t.m ++ ('/' :: pad4 t.y)))) =
      [(t, [])] := by
  obtain ⟨hy1, hy2, hm1, hm2, hd1, hd2⟩ := validYMD_bounds h
  rw [fmtDMYslash, day_lit_step hd1 hd2 (by decide) (by decide)]
  rw [mon_lit_step hm1 hm2 (by decide)]
  rw [yearCand_pad4' hy2, candBind_cons, candBind_nil, List.append_nil]

theorem fmtDbYdash_encDbYdash {t : YMD} (h : validYMD t = true) :
    fmtDbYdash (dayChars t.d ++ ('-' :: (monAbbr t.m ++ ('-' :: pad4 t.y)))) =
      [(t, [])] := by
  obtain ⟨hy1, hy2, hm1, hm2, hd1, hd2⟩ := validYMD_bounds h
  rw [fmtDbYdash, day_lit_step hd1 hd2 (by decide) (by decide)]
  rw [bCand_abbr hm1 hm2, candBind_cons, candBind_nil, List.append_nil,
    litCand_pos, candBind_cons, candBind_nil, List.append_nil,
    yearCand_pad4' hy2, candBind_cons, candBind_nil, List.append_nil]

/-- The `%d %b %Y` format fails on anything starting with three digits. -/
theorem fmtDBY_digits_fail {c1 c2 c3 : Char} (h2 : isDig c2 = true)
    (h3 : isDig c3 = true) (rest : List Char) :
    fmtDBY (c1 :: c2 :: c3 :: rest) = [] := by
  rw [fmtDBY]
  apply bind_lit_nil
  intro p hp
  obtain ⟨c, cs, hcs, hc⟩ := numCand_rest_digit h2 h3 p hp
  exact ⟨c, cs, hcs, ne_of_isDig hc (by decide)⟩

/-- The `%d %b %Y` format fails on a day followed by a non-space
separator. -/
theorem fmtDBY_sep_fail {d : Nat} (hd1 : 1 ≤ d) (hd2 : d ≤ 31) {sep : Char}
    (hsd : isDig sep = false) (hne : sep ≠ ' ') (rest : List Char) :
    fmtDBY (dayChars d ++ sep :: rest) = [] := by
  rw [fmtDBY]
  exact day_sep_fail hd1 hd2 hsd hne (by decide) rest _

/-- The `%Y-%m-%d` format fails on a day-led encoding (a non-digit occurs
among the first four characters). -/
theorem fmtISO_fail {c1 c2 c3 c4 : Char} (rest : List Char)
    (h : isDig c1 = false ∨ isDig c2 = false ∨ isDig c3 = false ∨
      isDig c4 = false) :
    fmtISO (c1 :: c2 :: c3 :: c4 :: rest) = [] := by
  rw [fmtISO, yearCand_fail rest h, candBind_nil]

/-- The `%d-%m-%Y` format fails on a day followed by a non-dash
separator. -/
theorem fmtDMY_sep_fail {d : Nat} (hd1 : 1 ≤ d) (hd2 : d ≤ 31) {sep : Char}
    (hsd : isDig sep = false) (hne : sep ≠ '-') (rest : List Char) :
    fmtDMY (dayChars d ++ sep :: rest) = [] := by
  rw [fmtDMY]
  exact day_sep_fail hd1 hd2 hsd hne (by decide) rest _

/-- The `%d-%m-%Y` format fails on a day, dash, then a non-digit (the
month-name encoding). -/
theorem fmtDMY_letter_fail {d : Nat} (hd1 : 1 ≤ d) (hd2 : d ≤ 31) {c : Char}
    (hc : isDig c = false) (rest : List Char) :
    fmtDMY (dayChars d ++ ('-' :: (c :: rest))) = [] := by
  rw [fmtDMY, day_lit_step hd1 hd2 (by decide) (by decide),
    numCand_nodig hc, candBind_nil]

/-- The `%d/%m/%Y` format fails on a day followed by a non-slash
separator. -/
theorem fmtDMYslash_sep_fail {d : Nat} (hd1 : 1 ≤ d) (hd2 : d ≤ 31)
    {sep : Char} (hsd : isDig sep = false) (hne : sep ≠ '/')
    (rest : List Char) :
    fmtDMYslash (dayChars d ++ sep :: rest) = [] := by
  rw [fmtDMYslash]
  exact day_sep_fail hd1 hd2 hsd hne (by decide) rest _

/-- The `%Y-%m-%d` format fails on any day-led encoding. -/
theorem fmtISO_dayled_fail {d : Nat} (hd1 : 1 ≤ d) (hd2 : d ≤ 31)
    {sep : Char} (hsep : isDig sep = false) (c3 c4 : Char) (rest : List Char) :
    fmtISO (dayChars d ++ (sep :: (c3 :: (c4 :: rest)))) = [] := by
  by_cases hlt : d < 10
  · rw [dayChars, if_pos hlt, List.cons_append, List.nil_append]
    exact fmtISO_fail _ (Or.inr (Or.inl hsep))
  · rw [dayChars, if_neg hlt, List.cons_append, List.cons_append,
      List.nil_append]
    exact fmtISO_fail _ (Or.inr (Or.inr (Or.inl hsep)))

theorem dayled_head {d : Nat} (hd : d ≤ 99) (r : List Char) :
    ∀ c, ((dayChars d ++ r).head? = some c) → isDig c = true := by
  intro c hc
  by_cases hlt : d < 10
  · rw [dayChars, if_pos hlt, List.cons_append, List.nil_append] at hc
    simp only [List.head?_cons, Option.some.injEq] at hc
    exact hc ▸ isDig_dig (by omega)
  · rw [dayChars, if_neg hlt, List.cons_append] at hc
    simp only [List.head?_cons, Option.some.injEq] at hc
    exact hc ▸ isDig_dig (by omega)

theorem pad4_last (y : Nat) : (pad4 y).getLast? = some (dig (y % 10)) := rfl

theorem not_empty_NA {l : List Char}
    (h : ∀ c, l.head? = some c → isDig c = true) (hne : l ≠ []) :
    ¬ (String.mk l = "" ∨ String.mk l = "N.A.") := by
  rintro (he | he)
  · exact hne (congrArg String.data he)
  · have hd : l = "N.A.".data := congrArg String.data he
    subst hd
    have := h 'N' rfl
    exact absurd this (by decide)

theorem parse_date_encDMY {t : YMD} (h : validYMD t = true) :
    parse_date (encDMY t) = some (canonStr t) := by
  obtain ⟨hy1, hy2, hm1, hm2, hd1, hd2⟩ := validYMD_bounds h
  have hhead := dayled_head (d := t.d) (by omega)
    ('-' :: (pad2 t.m ++ ('-' :: pad4 t.y)))
  have hlast : ∀ c,
      ((dayChars t.d ++ ('-' :: (pad2 t.m ++ ('-' :: pad4 t.y)))).getLast? =
        some c) → isSp c = false := by
    intro c hc
    rw [List.getLast?_append] at hc
    simp only [List.getLast?_cons, List.getLast?_append, pad4_last] at hc
    simp only [Option.or_some, Option.some.injEq] at hc
    exact hc ▸ isSp_false_of_isDig (isDig_dig (by omega))
  have hne : dayChars t.d ++ ('-' :: (pad2 t.m ++ ('-' :: pad4 t.y))) ≠ [] := by
    by_cases hlt : t.d < 10 <;> simp [dayChars, hlt]
  have htail : pad2 t.m ++ ('-' :: pad4 t.y) =
      dig (t.m / 10) :: (dig (t.m % 10) :: ('-' :: pad4 t.y)) := by
    simp [pad2]
  have hA : runFmt fmtDBY
      (dayChars t.d ++ ('-' :: (pad2 t.m ++ ('-' :: pad4 t.y)))) = none :=
    runFmt_nil (fmtDBY_sep_fail hd1 hd2 (by decide) (by decide) _)
  have hB : runFmt fmtISO
      (dayChars t.d ++ ('-' :: (pad2 t.m ++ ('-' :: pad4 t.y)))) = none := by
    rw [htail]
    exact runFmt_nil (fmtISO_dayled_fail hd1 hd2 (by decide) _ _ _)
  have hC : runFmt fmtDMY
      (dayChars t.d ++ ('-' :: (pad2 t.m ++ ('-' :: pad4 t.y)))) = some t :=
    runFmt_head (fmtDMY_encDMY h) h
  rw [encDMY, parse_date,
    if_neg (not_empty_NA (fun c hc => hhead c hc) hne)]
  have hstrip : pyStrip (String.mk
      (dayChars t.d ++ ('-' :: (pad2 t.m ++ ('-' :: pad4 t.y))))).data =
      dayChars t.d ++ ('-' :: (pad2 t.m ++ ('-' :: pad4 t.y))) :=
    pyStrip_eq_self (fun c hc => isSp_false_of_isDig (hhead c hc)) hlast
  rw [hstrip, tryFormats5, hA, hB, hC]
  simp [Option.orElse]

theorem parse_date_encDBY {t : YMD} (h : validYMD t = true) :
    parse_date (encDBY t) = some (canonStr t) := by
  obtain ⟨hy1, hy2, hm1, hm2, hd1, hd2⟩ := validYMD_bounds h
  have hhead := dayled_head (d := t.d) (by omega)
    (' ' :: (monAbbr t.m ++ (' ' :: pad4 t.y)))
  have hlast : ∀ c,
      ((dayChars t.d ++ (' ' :: (monAbbr t.m ++ (' ' :: pad4 t.y)))).getLast? =
        some c) → isSp c = false := by
    intro c hc
    rw [List.getLast?_append] at hc
    simp only [List.getLast?_cons, List.getLast?_append, pad4_last] at hc
    simp only [Option.or_some, Option.some.injEq] at hc
    exact hc ▸ isSp_false_of_isDig (isDig_dig (by omega))
  have hne : dayChars t.d ++ (' ' :: (monAbbr t.m ++ (' ' :: pad4 t.y))) ≠ [] := by
    by_cases hlt : t.d < 10 <;> simp [dayChars, hlt]
  have hA : runFmt fmtDBY
      (dayChars t.d ++ (' ' :: (monAbbr t.m ++ (' ' :: pad4 t.y)))) = some t :=
    runFmt_head (fmtDBY_encDBY h) h
  rw [encDBY, parse_date, if_neg (not_empty_NA (fun c hc => hhead c hc) hne)]
  have hstrip : pyStrip (String.mk
      (dayChars t.d ++ (' ' :: (monAbbr t.m ++ (' ' :: pad4 t.y))))).data =
      dayChars t.d ++ (' ' :: (monAbbr t.m ++ (' ' :: pad4 t.y))) :=
    pyStrip_eq_self (fun c hc => isSp_false_of_isDig (hhead c hc)) hlast
  rw [hstrip, tryFormats5, hA]
  simp [Option.orElse]

theorem parse_date_encISO {t : YMD} (h : validYMD t = true) :
    parse_date (encISO t) = some (canonStr t) := by
  obtain ⟨hy1, hy2, hm1, hm2, hd1, hd2⟩ := validYMD_bounds h
  have hcons : canonChars t =
      dig (t.y / 1000) :: (dig (t.y / 100 % 10) :: (dig (t.y / 10 % 10) ::
        (dig (t.y % 10) :: ('-' :: (pad2 t.m ++ ('-' :: pad2 t.d)))))) := by
    simp [canonChars, pad4]
  have hhead : ∀ c, (canonChars t).head? = some c → isDig c = true := by
    intro c hc
    rw [hcons] at hc
    simp only [List.head?_cons, Option.some.injEq] at hc
    exact hc ▸ isDig_dig (by omega)
  have hlast : ∀ c, (canonChars t).getLast? = some c → isSp c = false := by
    intro c hc
    rw [canonChars, List.getLast?_append] at hc
    simp only [List.getLast?_cons, List.getLast?_append,
      show (pad2 t.d).getLast? = some (dig (t.d % 10)) from rfl] at hc
    simp only [Option.or_some, Option.some.injEq] at hc
    exact hc ▸ isSp_false_of_isDig (isDig_dig (by omega))
  have hne : canonChars t ≠ [] := by rw [hcons]; simp
  have hA : runFmt fmtDBY (canonChars t) = none := by
    rw [hcons]
    exact runFmt_nil
      (fmtDBY_digits_fail (isDig_dig (by omega)) (isDig_dig (by omega)) _)
  have hB : runFmt fmtISO (canonChars t) = some t := by
    obtain ⟨junk, hj⟩ := fmtISO_canon h
    exact runFmt_head hj h
  rw [encISO, parse_date, if_neg (not_empty_NA hhead hne)]
  have hstrip : pyStrip (String.mk (canonChars t)).data = canonChars t :=
    pyStrip_eq_self (fun c hc => isSp_false_of_isDig (hhead c hc)) hlast
  rw [hstrip, tryFormats5, hA, hB]
  simp [Option.orElse]

theorem parse_date_encDMYslash {t : YMD} (h : validYMD t = true) :
    parse_date (encDMYslash t) = some (canonStr t) := by
  obtain ⟨hy1, hy2, hm1, hm2, hd1, hd2⟩ := validYMD_bounds h
  have hhead := dayled_head (d := t.d) (by omega)
    ('/' :: (pad2 t.m ++ ('/' :: pad4 t.y)))
  have hlast : ∀ c,
      ((dayChars t.d ++ ('/' :: (pad2 t.m ++ ('/' :: pad4 t.y)))).getLast? =
        some c) → isSp c = false := by
    intro c hc
    rw [List.getLast?_append] at hc
    simp only [List.getLast?_cons, List.getLast?_append, pad4_last] at hc
    simp only [Option.or_some, Option.some.injEq] at hc
    exact hc ▸ isSp_false_of_isDig (isDig_dig (by omega))
  have hne : dayChars t.d ++ ('/' :: (pad2 t.m ++ ('/' :: pad4 t.y))) ≠ [] := by
    by_cases hlt : t.d < 10 <;> simp [dayChars, hlt]
  have htail : pad2 t.m ++ ('/' :: pad4 t.y) =
      dig (t.m / 10) :: (dig (t.m % 10) :: ('/' :: pad4 t.y)) := by
    simp [pad2]
  have hA : runFmt fmtDBY
      (dayChars t.d ++ ('/' :: (pad2 t.m ++ ('/' :: pad4 t.y)))) = none :=
    runFmt_nil (fmtDBY_sep_fail hd1 hd2 (by decide) (by decide) _)
  have hB : runFmt fmtISO
      (dayChars t.d ++ ('/' :: (pad2 t.m ++ ('/' :: pad4 t.y)))) = none := by
    rw [htail]
    exact runFmt_nil (fmtISO_dayled_fail hd1 hd2 (by decide) _ _ _)
  have hC : runFmt fmtDMY
      (dayChars t.d ++ ('/' :: (pad2 t.m ++ ('/' :: pad4 t.y)))) = none :=
    runFmt_nil (fmtDMY_sep_fail hd1 hd2 (by decide) (by decide) _)
  have hD : runFmt fmtDMYslash
      (dayChars t.d ++ ('/' :: (pad2 t.m ++ ('/' :: pad4 t.y)))) = some t :=
    runFmt_head (fmtDMYslash_encDMYslash h) h
  rw [encDMYslash, parse_date,
    if_neg (not_empty_NA (fun c hc => hhead c hc) hne)]
  have hstrip : pyStrip (String.mk
      (dayChars t.d ++ ('/' :: (pad2 t.m ++ ('/' :: pad4 t.y))))).data =
      dayChars t.d ++ ('/' :: (pad2 t.m ++ ('/' :: pad4 t.y))) :=
    pyStrip_eq_self (fun c hc => isSp_false_of_isDig (hhead c hc)) hlast
  rw [hstrip, tryFormats5, hA, hB, hC, hD]
  simp [Option.orElse]

theorem parse_date_encDbYdash {t : YMD} (h : validYMD t = true) :
    parse_date (encDbYdash t) = some (canonStr t) := by
  obtain ⟨hy1, hy2, hm1, hm2, hd1, hd2⟩ := validYMD_bounds h
  obtain ⟨a, b, c0, habc, hadig⟩ := monAbbr_shape hm1 hm2
  have hhead := dayled_head (d := t.d) (by omega)
    ('-' :: (monAbbr t.m ++ ('-' :: pad4 t.y)))
  have hlast : ∀ c,
      ((dayChars t.d ++ ('-' :: (monAbbr t.m ++ ('-' :: pad4 t.y)))).getLast? =
        some c) → isSp c = false := by
    intro c hc
    rw [List.getLast?_append] at hc
    simp only [List.getLast?_cons, List.getLast?_append, pad4_last] at hc
    simp only [Option.or_some, Option.some.injEq] at hc
    exact hc ▸ isSp_false_of_isDig (isDig_dig (by omega))
  have hne : dayChars t.d ++ ('-' :: (monAbbr t.m ++ ('-' :: pad4 t.y))) ≠ [] := by
    by_cases hlt : t.d < 10 <;> simp [dayChars, hlt]
  have htail : monAbbr t.m ++ ('-' :: pad4 t.y) =
      a :: (b :: (c0 :: ('-' :: pad4 t.y))) := by
    rw [habc]
    simp
  have hA : runFmt fmtDBY
      (dayChars t.d ++ ('-' :: (monAbbr t.m ++ ('-' :: pad4 t.y)))) = none :=
    runFmt_nil (fmtDBY_sep_fail hd1 hd2 (by decide) (by decide) _)
  have hB : runFmt fmtISO
      (dayChars t.d ++ ('-' :: (monAbbr t.m ++ ('-' :: pad4 t.y)))) = none := by
    rw [htail]
    exact runFmt_nil (fmtISO_dayled_fail hd1 hd2 (by decide) _ _ _)
  have hC : runFmt fmtDMY
      (dayChars t.d ++ ('-' :: (monAbbr t.m ++ ('-' :: pad4 t.y)))) = none := by
    rw [htail]
    exact runFmt_nil (fmtDMY_letter_fail hd1 hd2 hadig _)
  have hD : runFmt fmtDMYslash
      (dayChars t.d ++ ('-' :: (monAbbr t.m ++ ('-' :: pad4 t.y)))) = none :=
    runFmt_nil (fmtDMYslash_sep_fail hd1 hd2 (by decide) (by decide) _)
  have hE : runFmt fmtDbYdash
      (dayChars t.d ++ ('-' :: (monAbbr t.m ++ ('-' :: pad4 t.y)))) = some t :=
    runFmt_head (fmtDbYdash_encDbYdash h) h
  rw [encDbYdash, parse_date,
    if_neg (not_empty_NA (fun c hc => hhead c hc) hne)]
  have hstrip : pyStrip (String.mk
      (dayChars t.d ++ ('-' :: (monAbbr t.m ++ ('-' :: pad4 t.y))))).data =
      dayChars t.d ++ ('-' :: (monAbbr t.m ++ ('-' :: pad4 t.y))) :=
    pyStrip_eq_self (fun c hc => isSp_false_of_isDig (hhead c hc)) hlast
  rw [hstrip, tryFormats5, hA, hB, hC, hD, hE]
  simp [Option.orElse]

/-- C2 counterexample: the claim says a value exactly 10 characters long
with dashes at indices 4 and 7 is accepted as-is without re-parsing, but
`"2025-10-1 "` (one-digit day plus a trailing space) satisfies that shape
and is nevertheless re-parsed and re-rendered to `"2025-10-01"`. -/
theorem parse_date_ten_dash_counterexample :
    ("2025-10-1 " : String).length = 10 ∧
    ("2025-10-1 " : String).data.get? 4 = some '-' ∧
    ("2025-10-1 " : String).data.get? 7 = some '-' ∧
    parse_date "2025-10-1 " = some "2025-10-01" ∧
    parse_date "2025-10-1 " ≠ some "2025-10-1 " := by decide

/-- C2 (amended): `parse_date` maps the empty string and the `"N.A."`
sentinel to absent; it maps every other unparseable value (one on which
all five formats fail after stripping) to absent without raising, unless
the value is exactly 10 characters with dashes at indices 4 and 7, in
which case — only after every format has failed — it is returned as-is. -/
theorem parse_date_absent_and_fast_path :
    parse_date "" = none ∧ parse_date "N.A." = none ∧
    (∀ s : String, tryFormats5 (pyStrip s.data) = none → tenDash s = false →
      parse_date s = none) ∧
    (∀ s : String, tryFormats5 (pyStrip s.data) = none → tenDash s = true →
      parse_date s = some s) := by
  refine ⟨rfl, rfl, ?_, ?_⟩
  · intro s hf ht
    by_cases hs : s = "" ∨ s = "N.A."
    · simp [parse_date, hs]
    · rw [parse_date, if_neg hs, hf]
      simp [ht]
  · intro s hf ht
    have hs : ¬ (s = "" ∨ s = "N.A.") := by
      rintro (rfl | rfl)
      · exact absurd ht (by decide)
      · exact absurd ht (by decide)
    rw [parse_date, if_neg hs, hf]
    simp [ht]

/-- Witness for the amended C2 theorem at concrete inputs. -/
theorem parse_date_absent_and_fast_path_witness :
    parse_date "garbage" = none ∧ parse_date "2025-02-30" = some "2025-02-30" :=
  ⟨parse_date_absent_and_fast_path.2.2.1 "garbage" (by decide) (by decide),
   parse_date_absent_and_fast_path.2.2.2 "2025-02-30" (by decide) (by decide)⟩

/-- C7: for every constructible calendar day, all five supported raw
encodings normalize to the same canonical `YYYY-MM-DD` string, and in
particular the five encodings of 17 October 2025 all give
`"2025-10-17"`. -/
theorem parse_date_format_independent :
    (∀ t : YMD, validYMD t = true →
      parse_date (encDBY t) = some (canonStr t) ∧
      parse_date (encISO t) = some (canonStr t) ∧
      parse_date (encDMY t) = some (canonStr t) ∧
      parse_date (encDMYslash t) = some (canonStr t) ∧
      parse_date (encDbYdash t) = some (canonStr t)) ∧
    parse_date "17 Oct 2025" = some "2025-10-17" ∧
    parse_date "2025-10-17" = some "2025-10-17" ∧
    parse_date "17-10-2025" = some "2025-10-17" ∧
    parse_date "17/10/2025" = some "2025-10-17" ∧
    parse_date "17-Oct-2025" = some "2025-10-17" := by
  refine ⟨fun t h => ⟨parse_date_encDBY h, parse_date_encISO h,
    parse_date_encDMY h, parse_date_encDMYslash h, parse_date_encDbYdash h⟩,
    ?_, ?_, ?_, ?_, ?_⟩ <;> decide

/-- Witness for C7 at the concrete day 17 October 2025. -/
theorem parse_date_format_independent_witness :
    parse_date (encDBY ⟨2025, 10, 17⟩) = some (canonStr ⟨2025, 10, 17⟩) ∧
    parse_date (encISO ⟨2025, 10, 17⟩) = some (canonStr ⟨2025, 10, 17⟩) ∧
    parse_date (encDMY ⟨2025, 10, 17⟩) = some (canonStr ⟨2025, 10, 17⟩) ∧
    parse_date (encDMYslash ⟨2025, 10, 17⟩) = some (canonStr ⟨2025, 10, 17⟩) ∧
    parse_date (encDbYdash ⟨2025, 10, 17⟩) = some (canonStr ⟨2025, 10, 17⟩) :=
  parse_date_format_independent.1 ⟨2025, 10, 17⟩ (by decide)

/-! ### Normalizer row lemmas and ingestion idempotence -/

theorem bonusRow_final {pf : String → Option Rat}
    {smap : String → Option SecInfo} {market : String} {row : List String}
    {a : CorporateAction} (h : bonusRow pf smap market row = some a) :
    a.final_date = a.ex_date := by
  unfold bonusRow at h
  rcases row with _ | ⟨c, _ | ⟨i, _ | ⟨s, _ | ⟨ad, _ | ⟨xd, _ | ⟨rn, _ | ⟨rd, rest⟩⟩⟩⟩⟩⟩⟩ <;>
    try simp at h
  rcases hrn : optFloat pf rn with _ | v1 <;> rcases hrd : optFloat pf rd with _ | v2 <;>
    rw [hrn, hrd] at h <;> simp at h
  rw [← h]

theorem dividendRow_final {pf : String → Option Rat}
    {smap : String → Option SecInfo} {market : String} {row : List String}
    {a : CorporateAction} (h : dividendRow pf smap market row = some a) :
    a.final_date = a.ex_date := by
  unfold dividendRow at h
  rcases row with _ | ⟨c, _ | ⟨ad, _ | ⟨xd, _ | ⟨rate, _ | ⟨dt, _ | ⟨rd, rest⟩⟩⟩⟩⟩⟩ <;>
    try simp at h
  rcases hr : optFloat pf rate with _ | v <;> rw [hr] at h <;> simp at h
  rw [← h]

theorem splitRow_final {pf : String → Option Rat}
    {smap : String → Option SecInfo} {market : String} {row : List String}
    {a : CorporateAction} (h : splitRow pf smap market row = some a) :
    a.final_date = a.ex_date := by
  unfold splitRow at h
  rcases row with _ | ⟨c, _ | ⟨x1, _ | ⟨x2, _ | ⟨ad, _ | ⟨xd, _ | ⟨rn, _ | ⟨rd, rest⟩⟩⟩⟩⟩⟩⟩ <;>
    try simp at h
  rcases hrn : optFloat pf rn with _ | v1 <;> rcases hrd : optFloat pf rd with _ | v2 <;>
    rw [hrn, hrd] at h <;> simp at h
  rw [← h]

theorem rightsRow_final {pf : String → Option Rat}
    {smap : String → Option SecInfo} {market : String} {row : List String}
    {a : CorporateAction} (h : rightsRow pf smap market row = some a) :
    a.final_date = a.ex_date := by
  unfold rightsRow at h
  rcases row with _ | ⟨c, _ | ⟨x1, _ | ⟨x2, _ | ⟨ad, _ | ⟨xd, _ | ⟨x5, _ | ⟨price, _ | ⟨rn, _ | ⟨rd, rest⟩⟩⟩⟩⟩⟩⟩⟩⟩ <;>
    try simp at h
  rcases hrn : optFloat pf rn with _ | v1 <;> rcases hrd : optFloat pf rd with _ | v2 <;>
    rcases hp : optFloat pf price with _ | v3 <;> rw [hrn, hrd, hp] at h <;> simp at h
  rw [← h]

theorem bonusRow_none_iff (pf : String → Option Rat)
    (smap smap' : String → Option SecInfo) (market : String)
    (row : List String) :
    bonusRow pf smap market row = none ↔ bonusRow pf smap' market row = none := by
  unfold bonusRow
  rcases row with _ | ⟨c, _ | ⟨i, _ | ⟨s, _ | ⟨ad, _ | ⟨xd, _ | ⟨rn, _ | ⟨rd, rest⟩⟩⟩⟩⟩⟩⟩ <;>
    try simp
  rcases hrn : optFloat pf rn with _ | v1 <;> rcases hrd : optFloat pf rd with _ | v2 <;>
    simp

theorem bonusRow_keys {pf : String → Option Rat}
    {smap smap' : String → Option SecInfo} {market : String}
    {row : List String} {a b : CorporateAction}
    (ha : bonusRow pf smap market row = some a)
    (hb : bonusRow pf smap' market row = some b) :
    a.company_name = b.company_name ∧ a.action_type = b.action_type ∧
    a.market_code = b.market_code ∧ a.ex_date = b.ex_date := by
  rcases row with _ | ⟨c, _ | ⟨i, _ | ⟨s, _ | ⟨ad, _ | ⟨xd, _ | ⟨rn, _ | ⟨rd, rest⟩⟩⟩⟩⟩⟩⟩ <;>
    simp only [bonusRow] at ha hb <;> try exact Option.noConfusion ha
  rcases hrn : optFloat pf rn with _ | v1 <;> rcases hrd : optFloat pf rd with _ | v2 <;>
    simp only [hrn, hrd] at ha hb <;> try exact Option.noConfusion ha
  cases ha
  cases hb
  exact ⟨rfl, rfl, rfl, rfl⟩

theorem procStep_fst_mono {f : List String → Option CorporateAction}
    {st : List CorporateAction × Nat} {row : List String}
    {k1 k2 k3 : String} {k4 : Option String}
    (h : existsKey st.1 k1 k2 k3 k4 = true) :
    existsKey (procStep f st row).1 k1 k2 k3 k4 = true := by
  unfold procStep
  cases hf : f row with
  | none => exact h
  | some a =>
    simp only []
    split
    · exact h
    · unfold existsKey at h ⊢
      rw [List.any_append]
      simp [h]

theorem procStep_self {f : List String → Option CorporateAction}
    {st : List CorporateAction × Nat} {row : List String}
    {a : CorporateAction} (hf : f row = some a) :
    existsKey (procStep f st row).1
      a.company_name a.action_type a.market_code a.ex_date = true := by
  unfold procStep
  rw [hf]
  simp only []
  split
  next hex => exact hex
  · unfold existsKey
    rw [List.any_append]
    simp

theorem foldl_procStep_mono {f : List String → Option CorporateAction}
    {rows : List (List String)} {k1 k2 k3 : String} {k4 : Option String} :
    ∀ {st : List CorporateAction × Nat},
      existsKey st.1 k1 k2 k3 k4 = true →
      existsKey ((rows.foldl (procStep f) st).1) k1 k2 k3 k4 = true := by
  induction rows with
  | nil => intro st h; exact h
  | cons r rs ih =>
    intro st h
    rw [List.foldl_cons]
    exact ih (procStep_fst_mono h)

theorem foldl_procStep_present {f : List String → Option CorporateAction}
    {rows : List (List String)} :
    ∀ (st : List CorporateAction × Nat), ∀ row ∈ rows,
      ∀ a : CorporateAction, f row = some a →
      existsKey ((rows.foldl (procStep f) st).1)
        a.company_name a.action_type a.market_code a.ex_date = true := by
  induction rows with
  | nil => intro st row hrow; exact absurd hrow (List.not_mem_nil row)
  | cons r rs ih =>
    intro st row hrow a hf
    rw [List.foldl_cons]
    rcases List.mem_cons.1 hrow with rfl | hmem
    · exact foldl_procStep_mono (procStep_self hf)
    · exact ih (procStep f st r) row hmem a hf

theorem foldl_procStep_noop {f : List String → Option CorporateAction}
    {rows : List (List String)} {st : List CorporateAction × Nat}
    (h : ∀ row ∈ rows, ∀ a : CorporateAction, f row = some a →
      existsKey st.1 a.company_name a.action_type a.market_code a.ex_date = true) :
    rows.foldl (procStep f) st = st := by
  induction rows with
  | nil => rfl
  | cons r rs ih =>
    rw [List.foldl_cons]
    have hstep : procStep f st r = st := by
      unfold procStep
      cases hf : f r with
      | none => rfl
      | some a =>
        simp only []
        rw [if_pos (h r (List.mem_cons_self r rs) a hf)]
    rw [hstep]
    exact ih fun row hrow => h row (List.mem_cons_of_mem r hrow)

theorem dividendRow_none_iff (pf : String → Option Rat)
    (smap smap' : String → Option SecInfo) (market : String)
    (row : List String) :
    dividendRow pf smap market row = none ↔
      dividendRow pf smap' market row = none := by
  unfold dividendRow
  rcases row with _ | ⟨c, _ | ⟨ad, _ | ⟨xd, _ | ⟨rate, _ | ⟨dt, _ | ⟨rd, rest⟩⟩⟩⟩⟩⟩ <;>
    try simp
  rcases hr : optFloat pf rate with _ | v <;> simp

theorem dividendRow_keys {pf : String → Option Rat}
    {smap smap' : String → Option SecInfo} {market : String}
    {row : List String} {a b : CorporateAction}
    (ha : dividendRow pf smap market row = some a)
    (hb : dividendRow pf smap' market row = some b) :
    a.company_name = b.company_name ∧ a.action_type = b.action_type ∧
    a.market_code = b.market_code ∧ a.ex_date = b.ex_date := by
  rcases row with _ | ⟨c, _ | ⟨ad, _ | ⟨xd, _ | ⟨rate, _ | ⟨dt, _ | ⟨rd, rest⟩⟩⟩⟩⟩⟩ <;>
    simp only [dividendRow] at ha hb <;> try exact Option.noConfusion ha
  rcases hr : optFloat pf rate with _ | v <;>
    simp only [hr] at ha hb <;> try exact Option.noConfusion ha
  cases ha
  cases hb
  exact ⟨rfl, rfl, rfl, rfl⟩

theorem splitRow_none_iff (pf : String → Option Rat)
    (smap smap' : String → Option SecInfo) (market : String)
    (row : List String) :
    splitRow pf smap market row = none ↔
      splitRow pf smap' market row = none := by
  unfold splitRow
  rcases row with _ | ⟨c, _ | ⟨x1, _ | ⟨x2, _ | ⟨ad, _ | ⟨xd, _ | ⟨rn, _ | ⟨rd, rest⟩⟩⟩⟩⟩⟩⟩ <;>
    try simp
  rcases hrn : optFloat pf rn with _ | v1 <;>
    rcases hrd : optFloat pf rd with _ | v2 <;> simp

theorem splitRow_keys {pf : String → Option Rat}
    {smap smap' : String → Option SecInfo} {market : String}
    {row : List String} {a b : CorporateAction}
    (ha : splitRow pf smap market row = some a)
    (hb : splitRow pf smap' market row = some b) :
    a.company_name = b.company_name ∧ a.action_type = b.action_type ∧
    a.market_code = b.market_code ∧ a.ex_date = b.ex_date := by
  rcases row with _ | ⟨c, _ | ⟨x1, _ | ⟨x2, _ | ⟨ad, _ | ⟨xd, _ | ⟨rn, _ | ⟨rd, rest⟩⟩⟩⟩⟩⟩⟩ <;>
    simp only [splitRow] at ha hb <;> try exact Option.noConfusion ha
  rcases hrn : optFloat pf rn with _ | v1 <;>
    rcases hrd : optFloat pf rd with _ | v2 <;>
    simp only [hrn, hrd] at ha hb <;> try exact Option.noConfusion ha
  cases ha
  cases hb
  exact ⟨rfl, rfl, rfl, rfl⟩

theorem rightsRow_none_iff (pf : String → Option Rat)
    (smap smap' : String → Option SecInfo) (market : String)
    (row : List String) :
    rightsRow pf smap market row = none ↔
      rightsRow pf smap' market row = none := by
  unfold rightsRow
  rcases row with _ | ⟨c, _ | ⟨x1, _ | ⟨x2, _ | ⟨ad, _ | ⟨xd, _ | ⟨x5, _ | ⟨price, _ | ⟨rn, _ | ⟨rd, rest⟩⟩⟩⟩⟩⟩⟩⟩⟩ <;>
    try simp
  rcases hrn : optFloat pf rn with _ | v1 <;>
    rcases hrd : optFloat pf rd with _ | v2 <;>
    rcases hp : optFloat pf price with _ | v3 <;> simp

theorem rightsRow_keys {pf : String → Option Rat}
    {smap smap' : String → Option SecInfo} {market : String}
    {row : List String} {a b : CorporateAction}
    (ha : rightsRow pf smap market row = some a)
    (hb : rightsRow pf smap' market row = some b) :
    a.company_name = b.company_name ∧ a.action_type = b.action_type ∧
    a.market_code = b.market_code ∧ a.ex_date = b.ex_date := by
  rcases row with _ | ⟨c, _ | ⟨x1, _ | ⟨x2, _ | ⟨ad, _ | ⟨xd, _ | ⟨x5, _ | ⟨price, _ | ⟨rn, _ | ⟨rd, rest⟩⟩⟩⟩⟩⟩⟩⟩⟩ <;>
    simp only [rightsRow] at ha hb <;> try exact Option.noConfusion ha
  rcases hrn : optFloat pf rn with _ | v1 <;>
    rcases hrd : optFloat pf rd with _ | v2 <;>
    rcases hp : optFloat pf price with _ | v3 <;>
    simp only [hrn, hrd, hp] at ha hb <;> try exact Option.noConfusion ha
  cases ha
  cases hb
  exact ⟨rfl, rfl, rfl, rfl⟩

/-- A second normalizer pass is a no-op whenever the second run's row
function agrees with the first run's on skipping and on the dedup key
fields (the security map may differ between runs). -/
theorem foldl_procStep_idem {f g : List String → Option CorporateAction}
    (hnone : ∀ row, f row = none ↔ g row = none)
    (hkeys : ∀ (row : List String) (a b : CorporateAction),
      f row = some a → g row = some b →
      a.company_name = b.company_name ∧ a.action_type = b.action_type ∧
      a.market_code = b.market_code ∧ a.ex_date = b.ex_date)
    (db : List CorporateAction) (rows : List (List String)) :
    rows.foldl (procStep g) ((rows.foldl (procStep f) (db, 0)).1, 0) =
      ((rows.foldl (procStep f) (db, 0)).1, 0) := by
  apply foldl_procStep_noop
  intro row hrow b hb
  have hex : ∃ a, f row = some a := by
    cases h : f row with
    | none =>
      rw [(hnone row).1 h] at hb
      exact Option.noConfusion hb
    | some a => exact ⟨a, rfl⟩
  obtain ⟨a, ha⟩ := hex
  obtain ⟨k1, k2, k3, k4⟩ := hkeys row a b ha hb
  rw [← k1, ← k2, ← k3, ← k4]
  exact foldl_procStep_present (db, 0) row hrow a ha

/-- C1: re-running any of the four normalizers on the same parsed rows
(with the security map possibly re-fetched) inserts zero records and
leaves the stored record set unchanged, because every row's
`(company_name, action_type, market_code, ex_date)` key is already
present after the first run. -/
theorem process_rows_idempotent :
    ∀ (pf : String → Option Rat) (smap smap' : String → Option SecInfo)
      (market : String) (db : List CorporateAction)
      (rows : List (List String)),
      (process_bonus_rows pf smap' market
          (process_bonus_rows pf smap market db rows).1 rows =
        ((process_bonus_rows pf smap market db rows).1, 0)) ∧
      (process_dividend_rows pf smap' market
          (process_dividend_rows pf smap market db rows).1 rows =
        ((process_dividend_rows pf smap market db rows).1, 0)) ∧
      (process_split_rows pf smap' market
          (process_split_rows pf smap market db rows).1 rows =
        ((process_split_rows pf smap market db rows).1, 0)) ∧
      (process_rights_rows pf smap' market
          (process_rights_rows pf smap market db rows).1 rows =
        ((process_rights_rows pf smap market db rows).1, 0)) := by
  intro pf smap smap' market db rows
  refine ⟨?_, ?_, ?_, ?_⟩
  · unfold process_bonus_rows
    exact foldl_procStep_idem (bonusRow_none_iff pf smap smap' market)
      (fun row a b ha hb => bonusRow_keys ha hb) db rows
  · unfold process_dividend_rows
    exact foldl_procStep_idem (dividendRow_none_iff pf smap smap' market)
      (fun row a b ha hb => dividendRow_keys ha hb) db rows
  · unfold process_split_rows
    exact foldl_procStep_idem (splitRow_none_iff pf smap smap' market)
      (fun row a b ha hb => splitRow_keys ha hb) db rows
  · unfold process_rights_rows
    exact foldl_procStep_idem (rightsRow_none_iff pf smap smap' market)
      (fun row a b ha hb => rightsRow_keys ha hb) db rows

/-- C10: every record any of the four normalizers constructs has
`final_date` equal to `ex_date` (absent exactly when `ex_date` is
absent), including dividend records carrying a separate `record_date`. -/
theorem normalizers_final_date_eq_ex_date :
    ∀ (pf : String → Option Rat) (smap : String → Option SecInfo)
      (market : String) (row : List String) (a : CorporateAction),
      (bonusRow pf smap market row = some a → a.final_date = a.ex_date) ∧
      (dividendRow pf smap market row = some a → a.final_date = a.ex_date) ∧
      (splitRow pf smap market row = some a → a.final_date = a.ex_date) ∧
      (rightsRow pf smap market row = some a → a.final_date = a.ex_date) :=
  fun _ _ _ _ _ =>
    ⟨bonusRow_final, dividendRow_final, splitRow_final, rightsRow_final⟩

/-- Witness for C10 at concrete rows of each action type. -/
theorem normalizers_final_date_eq_ex_date_witness :
    ∃ a b c d : CorporateAction,
      bonusRow (fun _ => none) (fun _ => none) "NSE"
        ["A", "N.A.", "E", "", "", "N.A.", "N.A."] = some a ∧
      a.final_date = a.ex_date ∧
      dividendRow (fun _ => none) (fun _ => none) "NSE"
        ["A", "", "", "N.A.", "t", ""] = some b ∧
      b.final_date = b.ex_date ∧
      splitRow (fun _ => none) (fun _ => none) "NSE"
        ["A", "x", "y", "", "", "N.A.", "N.A."] = some c ∧
      c.final_date = c.ex_date ∧
      rightsRow (fun _ => none) (fun _ => none) "NSE"
        ["A", "R", "x", "", "", "z", "N.A.", "N.A.", "N.A."] = some d ∧
      d.final_date = d.ex_date :=
  ⟨_, _, _, _, rfl,
    (normalizers_final_date_eq_ex_date (fun _ => none) (fun _ => none) "NSE"
      ["A", "N.A.", "E", "", "", "N.A.", "N.A."] _).1 rfl, rfl,
    (normalizers_final_date_eq_ex_date (fun _ => none) (fun _ => none) "NSE"
      ["A", "", "", "N.A.", "t", ""] _).2.1 rfl, rfl,
    (normalizers_final_date_eq_ex_date (fun _ => none) (fun _ => none) "NSE"
      ["A", "x", "y", "", "", "N.A.", "N.A."] _).2.2.1 rfl, rfl,
    (normalizers_final_date_eq_ex_date (fun _ => none) (fun _ => none) "NSE"
      ["A", "R", "x", "", "", "z", "N.A.", "N.A.", "N.A."] _).2.2.2 rfl⟩

/-! ### The out-of-band date repair pass (C9) -/

theorem canonChars_explicit (t : YMD) :
    canonChars t = [dig (t.y / 1000), dig (t.y / 100 % 10),
      dig (t.y / 10 % 10), dig (t.y % 10), '-', dig (t.m / 10),
      dig (t.m % 10), '-', dig (t.d / 10), dig (t.d % 10)] := by
  simp [canonChars, pad4, pad2]

theorem runFmt_valid {f : List Char → List (YMD × List Char)}
    {cs : List Char} {t : YMD} (h : runFmt f cs = some t) :
    validYMD t = true := by
  unfold runFmt at h
  cases hh : (f cs).head? with
  | none => rw [hh] at h; exact Option.noConfusion h
  | some p =>
    obtain ⟨t', rest⟩ := p
    rw [hh] at h
    simp only [] at h
    by_cases hc : (rest.isEmpty && validYMD t') = true
    · rw [if_pos hc] at h
      injection h with h'
      subst h'
      simp only [Bool.and_eq_true] at hc
      exact hc.2
    · rw [if_neg hc] at h
      exact Option.noConfusion h

theorem orElse_cases {a : Option YMD} {f : Unit → Option YMD} {t : YMD}
    (h : a.orElse f = some t) : a = some t ∨ (a = none ∧ f () = some t) := by
  cases a with
  | none => exact Or.inr ⟨rfl, by simpa [Option.orElse] using h⟩
  | some x => exact Or.inl (by simpa [Option.orElse] using h)

theorem tryFormats6_valid {cs : List Char} {t : YMD}
    (h : tryFormats6 cs = some t) : validYMD t = true := by
  unfold tryFormats6 at h
  rcases orElse_cases h with h | ⟨_, h⟩
  · exact runFmt_valid h
  rcases orElse_cases h with h | ⟨_, h⟩
  · exact runFmt_valid h
  rcases orElse_cases h with h | ⟨_, h⟩
  · exact runFmt_valid h
  rcases orElse_cases h with h | ⟨_, h⟩
  · exact runFmt_valid h
  rcases orElse_cases h with h | ⟨_, h⟩
  · exact runFmt_valid h
  exact runFmt_valid h

theorem canonStr_head {t : YMD} (hy : t.y ≤ 9999) :
    ∀ c, (canonChars t).head? = some c → isDig c = true := by
  intro c hc
  rw [canonChars_explicit] at hc
  simp only [List.head?_cons, Option.some.injEq] at hc
  exact hc ▸ isDig_dig (by omega)

theorem canonStr_not_empty_NA {t : YMD} (hy : t.y ≤ 9999) :
    ¬ (canonStr t = "" ∨ canonStr t = "N.A.") :=
  not_empty_NA (canonStr_head hy) (by rw [canonChars_explicit]; simp)

theorem tenDash_canonStr (t : YMD) : tenDash (canonStr t) = true := by
  rw [canonStr, tenDash, canonChars_explicit]
  rfl

/-- The fast path of the repair pass accepts every canonical rendering of
a constructible day unchanged. -/
theorem paf_canon {t : YMD} (h : validYMD t = true) :
    parse_and_fix_date (canonStr t) = some (canonStr t) := by
  obtain ⟨hy1, hy2, _⟩ := validYMD_bounds h
  have hiso : runFmt fmtISO (canonStr t).data = some t := by
    obtain ⟨junk, hj⟩ := fmtISO_canon h
    exact runFmt_head hj h
  have hcond : (tenDash (canonStr t) &&
      (runFmt fmtISO (canonStr t).data).isSome) = true := by
    rw [tenDash_canonStr, hiso]
    rfl
  rw [parse_and_fix_date, if_neg (canonStr_not_empty_NA hy2), if_pos hcond]

/-- Applying the repair pass twice gives the same result as once. -/
theorem paf_idem (s t : String) (h : parse_and_fix_date s = some t) :
    parse_and_fix_date t = some t := by
  unfold parse_and_fix_date at h
  by_cases h1 : s = "" ∨ s = "N.A."
  · rw [if_pos h1] at h
    exact Option.noConfusion h
  · rw [if_neg h1] at h
    by_cases h2 : (tenDash s && (runFmt fmtISO s.data).isSome) = true
    · rw [if_pos h2] at h
      injection h with h'
      subst h'
      rw [parse_and_fix_date, if_neg h1, if_pos h2]
    · rw [if_neg h2] at h
      cases hm : tryFormats6 (pyStrip s.data) with
      | some u =>
        rw [hm] at h
        injection h with h'
        subst h'
        exact paf_canon (tryFormats6_valid hm)
      | none =>
        rw [hm] at h
        injection h with h'
        subst h'
        rw [parse_and_fix_date, if_neg h1, if_neg h2, hm]

theorem fixField_canonical {x : Option String} (h : canonicalField x) :
    fixField x = x := by
  rcases h with rfl | ⟨t, hv, rfl⟩
  · rfl
  · obtain ⟨_, hy2, _⟩ := validYMD_bounds hv
    have hne : ¬ canonStr t = "" := fun he =>
      canonStr_not_empty_NA hy2 (Or.inl he)
    rw [fixField, if_neg hne, paf_canon hv]

/-- C9: the date repair pass is idempotent: it maps every canonical
`YYYY-MM-DD` rendering of a constructible day to itself, applying it
twice to any string equals applying it once, and re-running the record
fix over already-canonical date fields changes nothing. -/
theorem fix_pass_idempotent :
    (∀ t : YMD, validYMD t = true →
      parse_and_fix_date (canonStr t) = some (canonStr t)) ∧
    (∀ s u : String, parse_and_fix_date s = some u →
      parse_and_fix_date u = some u) ∧
    (∀ r : CorporateAction, canonicalField r.announcement_date →
      canonicalField r.ex_date → canonicalField r.record_date →
      canonicalField r.final_date → fixDates r = r) := by
  refine ⟨fun t h => paf_canon h, paf_idem, fun r h1 h2 h3 h4 => ?_⟩
  unfold fixDates
  rw [fixField_canonical h1, fixField_canonical h2, fixField_canonical h3,
    fixField_canonical h4]

/-- Witness for C9 at 17 October 2025 and a concrete record. -/
theorem fix_pass_idempotent_witness :
    parse_and_fix_date (canonStr ⟨2025, 10, 17⟩) =
      some (canonStr ⟨2025, 10, 17⟩) ∧
    parse_and_fix_date "2025-10-17" = some "2025-10-17" ∧
    fixDates { company_name := "A", market_code := "NSE",
               action_type := "bonus",
               ex_date := some (canonStr ⟨2025, 10, 17⟩),
               final_date := some (canonStr ⟨2025, 10, 17⟩) } =
      { company_name := "A", market_code := "NSE", action_type := "bonus",
        ex_date := some (canonStr ⟨2025, 10, 17⟩),
        final_date := some (canonStr ⟨2025, 10, 17⟩) } := by
  refine ⟨fix_pass_idempotent.1 ⟨2025, 10, 17⟩ (by decide),
    fix_pass_idempotent.2.1 "17 Oct 2025" "2025-10-17" (by decide),
    fix_pass_idempotent.2.2 _ (Or.inl rfl)
      (Or.inr ⟨⟨2025, 10, 17⟩, by decide, rfl⟩) (Or.inl rfl)
      (Or.inr ⟨⟨2025, 10, 17⟩, by decide, rfl⟩)⟩

/-! ### Retention sweeper lemmas (C4) -/

theorem char_lt_iff (a b : Char) : a < b ↔ a.toNat < b.toNat := Iff.rfl

theorem dig_lt_iff {a b : Nat} (ha : a < 10) (hb : b < 10) :
    dig a < dig b ↔ a < b := by
  rw [char_lt_iff, toNat_dig ha, toNat_dig hb]
  omega

theorem listLtB_head {a b : Char} (h : a < b) (as bs : List Char) :
    listLtB (a :: as) (b :: bs) = true := by
  simp [listLtB, h]

theorem listLtB_tail (a : Char) {as bs : List Char}
    (h : listLtB as bs = true) : listLtB (a :: as) (a :: bs) = true := by
  have hi : ¬ a < a := by rw [char_lt_iff]; omega
  simp [listLtB, hi, h]

theorem listLtB_irrefl (l : List Char) : listLtB l l = false := by
  induction l with
  | nil => rfl
  | cons a as ih =>
    have hi : ¬ a < a := by rw [char_lt_iff]; omega
    simp [listLtB, hi, ih]

theorem listLt_two_digits {x y : Nat} (hx : x ≤ 99) (hy : y ≤ 99)
    (h : x < y) (r s : List Char) :
    listLtB (dig (x / 10) :: dig (x % 10) :: r)
      (dig (y / 10) :: dig (y % 10) :: s) = true := by
  rcases Nat.lt_trichotomy (x / 10) (y / 10) with h1 | h1 | h1
  · exact listLtB_head ((dig_lt_iff (by omega) (by omega)).2 h1) _ _
  · rw [h1]
    exact listLtB_tail _
      (listLtB_head ((dig_lt_iff (by omega) (by omega)).2 (by omega)) _ _)
  · exact absurd h (by omega)

theorem listLt_year {x y : Nat} (hx : x ≤ 9999) (hy : y ≤ 9999) (h : x < y)
    (r s : List Char) :
    listLtB
      (dig (x / 1000) :: dig (x / 100 % 10) :: dig (x / 10 % 10) ::
        dig (x % 10) :: r)
      (dig (y / 1000) :: dig (y / 100 % 10) :: dig (y / 10 % 10) ::
        dig (y % 10) :: s) = true := by
  rcases Nat.lt_trichotomy (x / 1000) (y / 1000) with h1 | h1 | h1
  · exact listLtB_head ((dig_lt_iff (by omega) (by omega)).2 h1) _ _
  · rw [h1]
    apply listLtB_tail
    rcases Nat.lt_trichotomy (x / 100 % 10) (y / 100 % 10) with h2 | h2 | h2
    · exact listLtB_head ((dig_lt_iff (by omega) (by omega)).2 h2) _ _
    · rw [h2]
      apply listLtB_tail
      rcases Nat.lt_trichotomy (x / 10 % 10) (y / 10 % 10) with h3 | h3 | h3
      · exact listLtB_head ((dig_lt_iff (by omega) (by omega)).2 h3) _ _
      · rw [h3]
        apply listLtB_tail
        exact listLtB_head ((dig_lt_iff (by omega) (by omega)).2 (by omega)) _ _
      · exact absurd h (by omega)
    · exact absurd h (by omega)
  · exact absurd h (by omega)

theorem canonMono {a b : YMD} (hlt : dateLt a b)
    (hay : a.y ≤ 9999) (hby : b.y ≤ 9999) (ham : a.m ≤ 99) (hbm : b.m ≤ 99)
    (had : a.d ≤ 99) (hbd : b.d ≤ 99) :
    listLtB (canonChars a) (canonChars b) = true := by
  rw [canonChars_explicit, canonChars_explicit]
  rcases hlt with h | ⟨hy, h⟩
  · exact listLt_year hay hby h _ _
  · rw [hy]
    apply listLtB_tail
    apply listLtB_tail
    apply listLtB_tail
    apply listLtB_tail
    apply listLtB_tail
    rcases h with h | ⟨hm, h⟩
    · exact listLt_two_digits ham hbm h _ _
    · rw [hm]
      apply listLtB_tail
      apply listLtB_tail
      apply listLtB_tail
      exact listLt_two_digits had hbd h _ _

theorem prevDay_lt {t : YMD} (hy : 1 ≤ t.y) : dateLt (prevDay t) t := by
  obtain ⟨y, m, d⟩ := t
  simp only at hy
  unfold prevDay dateLt
  simp only []
  by_cases h1 : 2 ≤ d
  · rw [if_pos h1]
    exact Or.inr ⟨rfl, Or.inr ⟨rfl, show d - 1 < d by omega⟩⟩
  · rw [if_neg h1]
    by_cases h2 : 2 ≤ m
    · rw [if_pos h2]
      exact Or.inr ⟨rfl, Or.inl (show m - 1 < m by omega)⟩
    · rw [if_neg h2]
      exact Or.inl (show y - 1 < y by omega)

theorem prevDay_bounds {t : YMD}
    (h : t.y ≤ 9999 ∧ t.m ≤ 12 ∧ t.d ≤ 31) :
    (prevDay t).y ≤ 9999 ∧ (prevDay t).m ≤ 12 ∧ (prevDay t).d ≤ 31 := by
  obtain ⟨y, m, d⟩ := t
  obtain ⟨hy, hm, hd⟩ := h
  simp only at hy hm hd
  unfold prevDay
  simp only []
  by_cases h1 : 2 ≤ d
  · rw [if_pos h1]
    exact ⟨hy, hm, show d - 1 ≤ 31 by omega⟩
  · rw [if_neg h1]
    by_cases h2 : 2 ≤ m
    · rw [if_pos h2]
      exact ⟨hy, show m - 1 ≤ 12 by omega, daysInMonth_le y (m - 1)⟩
    · rw [if_neg h2]
      exact ⟨show y - 1 ≤ 9999 by omega, show 12 ≤ 12 by omega,
        show 31 ≤ 31 by omega⟩

theorem subDays_bounds {t : YMD}
    (h : t.y ≤ 9999 ∧ t.m ≤ 12 ∧ t.d ≤ 31) (n : Nat) :
    (subDays n t).y ≤ 9999 ∧ (subDays n t).m ≤ 12 ∧ (subDays n t).d ≤ 31 := by
  induction n with
  | zero => exact h
  | succ n ih => exact prevDay_bounds ih

theorem R_step {k : Nat} {u : YMD} (hk : k ≤ 30)
    (h : 1 ≤ u.y ∧ (2 ≤ u.y ∨ k + 2 ≤ u.d)) :
    1 ≤ (prevDay u).y ∧ (2 ≤ (prevDay u).y ∨ k + 1 ≤ (prevDay u).d) := by
  obtain ⟨y, m, d⟩ := u
  obtain ⟨hy1, hor⟩ := h
  simp only at hy1 hor
  unfold prevDay
  simp only []
  by_cases h1 : 2 ≤ d
  · rw [if_pos h1]
    rcases hor with h2 | h2
    · exact ⟨show 1 ≤ y by omega, Or.inl (show 2 ≤ y by omega)⟩
    · exact ⟨show 1 ≤ y by omega, Or.inr (show k + 1 ≤ d - 1 by omega)⟩
  · have h2 : 2 ≤ y := by rcases hor with h2 | h2 <;> omega
    rw [if_neg h1]
    by_cases hm : 2 ≤ m
    · rw [if_pos hm]
      exact ⟨show 1 ≤ y by omega, Or.inl (show 2 ≤ y by omega)⟩
    · rw [if_neg hm]
      by_cases h3 : 2 ≤ y - 1
      · exact ⟨show 1 ≤ y - 1 by omega, Or.inl h3⟩
      · exact ⟨show 1 ≤ y - 1 by omega, Or.inr (show k + 1 ≤ 31 by omega)⟩

theorem subDays_R {t : YMD} (hy : 2 ≤ t.y) :
    ∀ i, i ≤ 11 → 1 ≤ (subDays i t).y ∧
      (2 ≤ (subDays i t).y ∨ (11 - i) + 1 ≤ (subDays i t).d) := by
  intro i
  induction i with
  | zero => intro _; exact ⟨show 1 ≤ t.y by omega, Or.inl hy⟩
  | succ n ih =>
    intro hn
    obtain ⟨ha, hb⟩ := ih (by omega)
    refine R_step (k := 11 - (n + 1)) (by omega) ⟨ha, ?_⟩
    rcases hb with hb | hb
    · exact Or.inl hb
    · exact Or.inr (by omega)

theorem length_filter_not_add {α : Type} (p : α → Bool) (l : List α) :
    (l.filter fun a => ! p a).length + (l.filter p).length = l.length := by
  induction l with
  | nil => rfl
  | cons a as ih =>
    cases hpa : p a <;> simp [List.filter_cons, hpa, ← ih] <;> omega

theorem isOld_iff (cutoff : String) (r : CorporateAction) :
    isOld cutoff r = true ↔
      ∃ fd, r.final_date = some fd ∧ listLtB fd.data cutoff.data = true := by
  unfold isOld
  cases hf : r.final_date with
  | none => simp
  | some fd => simp

/-- C4: with a 10-day horizon the sweeper deletes exactly the records
whose `final_date` is lexicographically below the cutoff string
`now - 10 days` rendered as `YYYY-MM-DD`; a record dated exactly 11 days
before now is deleted, one dated exactly 10 days before is retained, and
the returned count is the number of records deleted. -/
theorem cleanup_retention :
    ∀ (now : YMD) (db : List CorporateAction),
      validYMD now = true → 2 ≤ now.y →
      (∀ r, isOld (canonStr (subDays 10 now)) r = true ↔
        ∃ fd, r.final_date = some fd ∧
          listLtB fd.data (canonStr (subDays 10 now)).data = true) ∧
      (∀ r ∈ db, (r ∈ (cleanup_old_records 10 now db).1 ↔
        isOld (canonStr (subDays 10 now)) r = false)) ∧
      ((cleanup_old_records 10 now db).1.length +
        (cleanup_old_records 10 now db).2 = db.length) ∧
      (∀ r ∈ db, r.final_date = some (canonStr (subDays 11 now)) →
        r ∉ (cleanup_old_records 10 now db).1) ∧
      (∀ r ∈ db, r.final_date = some (canonStr (subDays 10 now)) →
        r ∈ (cleanup_old_records 10 now db).1) := by
  intro now db hval hy2
  obtain ⟨hy1, hY, hm1, hM, hd1, hD⟩ := validYMD_bounds hval
  have hmem : ∀ r, r ∈ (cleanup_old_records 10 now db).1 ↔
      r ∈ db ∧ isOld (canonStr (subDays 10 now)) r = false := by
    intro r
    unfold cleanup_old_records
    rw [List.mem_filter]
    simp [Bool.not_eq_true']
  have hb10 := subDays_bounds (t := now) ⟨hY, hM, hD⟩ 10
  have hb11 := subDays_bounds (t := now) ⟨hY, hM, hD⟩ 11
  have hlt : dateLt (subDays 11 now) (subDays 10 now) :=
    prevDay_lt (subDays_R hy2 10 (by omega)).1
  have hcanon : listLtB (canonStr (subDays 11 now)).data
      (canonStr (subDays 10 now)).data = true :=
    canonMono hlt hb11.1 hb10.1 (by omega) (by omega) (by omega) (by omega)
  refine ⟨isOld_iff _, fun r hr => (hmem r).trans (by simp [hr]), ?_, ?_, ?_⟩
  · unfold cleanup_old_records
    exact length_filter_not_add _ db
  · intro r hr hfd hin
    have := ((hmem r).1 hin).2
    simp only [isOld, hfd, hcanon] at this
    exact Bool.noConfusion this
  · intro r hr hfd
    refine (hmem r).2 ⟨hr, ?_⟩
    simp only [isOld, hfd]
    exact listLtB_irrefl _

/-- Witness for C4 at 17 October 2025 with one record 11 days old and one
10 days old. -/
theorem cleanup_retention_witness :
    ({ company_name := "A", market_code := "NSE", action_type := "dividend",
       final_date := some "2025-10-06" } : CorporateAction) ∉
      (cleanup_old_records 10 ⟨2025, 10, 17⟩
        [{ company_name := "A", market_code := "NSE",
           action_type := "dividend", final_date := some "2025-10-06" },
         { company_name := "B", market_code := "NSE",
           action_type := "dividend", final_date := some "2025-10-07" }]).1 ∧
    ({ company_name := "B", market_code := "NSE", action_type := "dividend",
       final_date := some "2025-10-07" } : CorporateAction) ∈
      (cleanup_old_records 10 ⟨2025, 10, 17⟩
        [{ company_name := "A", market_code := "NSE",
           action_type := "dividend", final_date := some "2025-10-06" },
         { company_name := "B", market_code := "NSE",
           action_type := "dividend", final_date := some "2025-10-07" }]).1 := by
  have h := cleanup_retention ⟨2025, 10, 17⟩
    [{ company_name := "A", market_code := "NSE", action_type := "dividend",
       final_date := some "2025-10-06" },
     { company_name := "B", market_code := "NSE", action_type := "dividend",
       final_date := some "2025-10-07" }] (by decide) (by decide)
  exact ⟨h.2.2.2.1 _ (by simp) (by decide), h.2.2.2.2 _ (by simp) (by decide)⟩

/-! ### Resolver lemmas (C5, C6) -/

theorem cacheKey_inj {n n' : String} {mk : Option String}
    (h : cacheKey n mk = cacheKey n' mk) : n = n' := by
  unfold cacheKey at h
  have hd := congrArg String.data h
  simp only [String.data_append] at hd
  have hd2 := List.append_cancel_right (List.append_cancel_right hd)
  obtain ⟨nd⟩ := n
  obtain ⟨nd'⟩ := n'
  simp only [String.data] at hd2
  rw [hd2]

theorem cacheSet_lookup (c : List (String × SecInfo)) (k : String)
    (v : SecInfo) : List.lookup k (cacheSet c k v) = some v := by
  induction c with
  | nil => simp [cacheSet, List.lookup]
  | cons p rest ih =>
    obtain ⟨k', v'⟩ := p
    unfold cacheSet
    by_cases hk : k' = k
    · rw [if_pos hk]
      simp [List.lookup]
    · rw [if_neg hk]
      have hne : (k == k') = false := by
        simp only [beq_eq_false_iff_ne, ne_eq]
        exact fun he => hk he.symm
      simp [List.lookup, hne, ih]

theorem cacheSet_lookup_ne {k k' : String} (h : k ≠ k')
    (c : List (String × SecInfo)) (v : SecInfo) :
    List.lookup k (cacheSet c k' v) = List.lookup k c := by
  induction c with
  | nil =>
    simp [cacheSet, List.lookup, beq_eq_false_iff_ne.2 h]
  | cons p rest ih =>
    obtain ⟨k0, v0⟩ := p
    unfold cacheSet
    by_cases hk : k0 = k'
    · rw [if_pos hk]
      subst hk
      simp [List.lookup, beq_eq_false_iff_ne.2 h]
    · rw [if_neg hk]
      by_cases hkk : (k == k0) = true
      · simp [List.lookup, hkk]
      · simp only [List.lookup, Bool.not_eq_true] at hkk ⊢
        rw [hkk]
        simp only []
        exact ih

theorem lookup_none_of_not_mem {n : String} {m : List (String × SecInfo)}
    (h : ∀ p ∈ m, p.1 ≠ n) : List.lookup n m = none := by
  induction m with
  | nil => rfl
  | cons p rest ih =>
    obtain ⟨k, v⟩ := p
    have hk : (n == k) = false := by
      simp only [beq_eq_false_iff_ne, ne_eq]
      exact fun he => h (k, v) (by simp) (by simp [he])
    simp only [List.lookup, hk]
    exact ih fun q hq => h q (by simp [hq])

theorem batch_keys {lookup : String → AlfagoResponse} {mk : Option String} :
    ∀ (names : List String) (cache : List (String × SecInfo)),
      ∀ p ∈ (fetch_security_batch lookup names mk cache).1, p.1 ∈ names := by
  intro names
  induction names with
  | nil => intro cache p hp; simp [fetch_security_batch] at hp
  | cons n rest ih =>
    intro cache p hp
    unfold fetch_security_batch at hp
    simp only [] at hp
    rcases hf : fetch_security_id lookup n mk cache with ⟨r, cache', q⟩
    rw [hf] at hp
    rcases hb : fetch_security_batch lookup rest mk cache' with ⟨m, cache''⟩
    rw [hb] at hp
    cases r with
    | none =>
      simp only [] at hp
      have := ih cache' p (by rw [hb]; exact hp)
      exact List.mem_cons_of_mem n this
    | some info =>
      simp only [List.mem_cons] at hp
      rcases hp with hp | hp
      · subst hp
        exact List.mem_cons_self n rest
      · exact List.mem_cons_of_mem n (ih cache' p (by rw [hb]; exact hp))

theorem batch_lookup_eq {lookup : String → AlfagoResponse}
    {mk : Option String} :
    ∀ (names : List String) (cache : List (String × SecInfo)),
      names.Nodup →
      (∀ n ∈ names, List.lookup (cacheKey n mk) cache = none) →
      ∀ n ∈ names,
        List.lookup n (fetch_security_batch lookup names mk cache).1 =
          processResp (lookup n) mk := by
  intro names
  induction names with
  | nil => intro cache _ _ n hn; exact absurd hn (List.not_mem_nil n)
  | cons n0 rest ih =>
    intro cache hnd hcache n hn
    have hc0 : List.lookup (cacheKey n0 mk) cache = none :=
      hcache n0 (List.mem_cons_self n0 rest)
    have hfid : fetch_security_id lookup n0 mk cache =
        (processResp (lookup n0) mk,
         match processResp (lookup n0) mk with
         | some r => cacheSet cache (cacheKey n0 mk) r
         | none => cache, true) := by
      unfold fetch_security_id
      simp only [hc0]
      cases hp : processResp (lookup n0) mk <;> simp [hp]
    have hnd' : rest.Nodup := (List.nodup_cons.1 hnd).2
    have hn0 : n0 ∉ rest := (List.nodup_cons.1 hnd).1
    have hcache' : ∀ k ∈ rest,
        List.lookup (cacheKey k mk)
          (match processResp (lookup n0) mk with
           | some r => cacheSet cache (cacheKey n0 mk) r
           | none => cache) = none := by
      intro k hk
      have hkn : cacheKey k mk ≠ cacheKey n0 mk := fun he =>
        hn0 (cacheKey_inj he ▸ hk)
      cases hp : processResp (lookup n0) mk with
      | none => exact hcache k (List.mem_cons_of_mem n0 hk)
      | some r =>
        simp only []
        rw [cacheSet_lookup_ne hkn]
        exact hcache k (List.mem_cons_of_mem n0 hk)
    unfold fetch_security_batch
    simp only []
    rw [hfid]
    rcases hb : fetch_security_batch lookup rest mk
        (match processResp (lookup n0) mk with
         | some r => cacheSet cache (cacheKey n0 mk) r
         | none => cache) with ⟨m, cache''⟩
    rcases List.mem_cons.1 hn with rfl | hmem
    · cases hp : processResp (lookup n) mk with
      | none =>
        simp only [hp]
        apply lookup_none_of_not_mem
        intro p hp'
        have := batch_keys rest _ p (by rw [hb]; exact hp')
        exact fun he => hn0 (he ▸ this)
      | some info =>
        simp only [hp]
        simp [List.lookup]
    · have hne : (n == n0) = false := by
        simp only [beq_eq_false_iff_ne, ne_eq]
        exact fun he => hn0 (he ▸ hmem)
      have hrec := ih _ hnd' hcache' n hmem
      rw [hb] at hrec
      cases hp : processResp (lookup n0) mk with
      | none =>
        simp only [hp]
        rw [hp] at hb
        exact hrec
      | some info =>
        simp only [hp, List.lookup, hne]
        rw [hp] at hb
        exact hrec

/-- C5: with a fresh cache and distinct names, the batch map holds, for
every name, exactly the per-name resolution outcome: a name whose lookup
times out or raises is omitted, every name that resolves successfully is
present, and the batch is a total function (no exception escapes: the
per-name handler absorbs them all into an absent result). -/
theorem fetch_security_batch_resilient :
    ∀ (lookup : String → AlfagoResponse) (mk : Option String)
      (names : List String), names.Nodup →
      (∀ n ∈ names,
        List.lookup n (fetch_security_batch lookup names mk []).1 =
          processResp (lookup n) mk) ∧
      (∀ n ∈ names,
        (lookup n = AlfagoResponse.timeout ∨ lookup n = AlfagoResponse.exc) →
        List.lookup n (fetch_security_batch lookup names mk []).1 = none) := by
  intro lookup mk names hnd
  have h := @batch_lookup_eq lookup mk names [] hnd (fun n _ => rfl)
  refine ⟨h, fun n hn hbad => ?_⟩
  rw [h n hn]
  rcases hbad with hb | hb <;> rw [hb] <;> rfl

/-- Witness for C5: names `A`, `B`, `C` where `B` times out — the batch
map holds `A` and `C` only. -/
theorem fetch_security_batch_resilient_witness :
    List.lookup "A"
      (fetch_security_batch
        (fun n => if n = "A" ∨ n = "C" then
          AlfagoResponse.resp 200 true (some ("success",
            [{ id := some 7, symbol1 := some "ACME", symbol2 := none,
               isin := some "I", market_code1 := some "NSE",
               market_code2 := none, company_name := some "Acme" }]))
          else AlfagoResponse.timeout)
        ["A", "B", "C"] (some "NSE") []).1 =
      some { security_id := some 7, symbol := some "ACME",
             isin := some "I", market_code := some "NSE",
             company_name := some "Acme" } ∧
    List.lookup "B"
      (fetch_security_batch
        (fun n => if n = "A" ∨ n = "C" then
          AlfagoResponse.resp 200 true (some ("success",
            [{ id := some 7, symbol1 := some "ACME", symbol2 := none,
               isin := some "I", market_code1 := some "NSE",
               market_code2 := none, company_name := some "Acme" }]))
          else AlfagoResponse.timeout)
        ["A", "B", "C"] (some "NSE") []).1 = none := by
  have h := fetch_security_batch_resilient
    (fun n => if n = "A" ∨ n = "C" then
      AlfagoResponse.resp 200 true (some ("success",
        [{ id := some 7, symbol1 := some "ACME", symbol2 := none,
           isin := some "I", market_code1 := some "NSE",
           market_code2 := none, company_name := some "Acme" }]))
      else AlfagoResponse.timeout)
    (some "NSE") ["A", "B", "C"] (by decide)
  constructor
  · rw [h.1 "A" (by simp)]
    decide
  · exact h.2 "B" (by simp) (Or.inl (by decide))

/-- C6 counterexample: a lookup that finds no data returns absent without
writing to the cache, and a second call with the same
`(companyName, marketHint)` pair queries the service again — the absence
of a result is not cached. -/
theorem absence_not_cached_counterexample :
    fetch_security_id
        (fun _ => AlfagoResponse.resp 200 true (some ("success", [])))
        "Acme" (some "NSE") [] = (none, [], true) ∧
    (fetch_security_id
        (fun _ => AlfagoResponse.resp 200 true (some ("success", [])))
        "Acme" (some "NSE")
        (fetch_security_id
          (fun _ => AlfagoResponse.resp 200 true (some ("success", [])))
          "Acme" (some "NSE") []).2.1).2.2 = true := by decide

/-- C6 (amended): only a successful resolution is cached per
`(companyName, marketHint)` key — a later identical call is answered from
the cache without querying the service, regardless of what the service
would now return; an absent outcome leaves the cache untouched and a
later identical call queries the service again. -/
theorem fetch_security_id_cache :
    (∀ (lookup lookup' : String → AlfagoResponse) (company : String)
        (mk : Option String) (cache c' : List (String × SecInfo))
        (r : SecInfo) (q : Bool),
      fetch_security_id lookup company mk cache = (some r, c', q) →
      fetch_security_id lookup' company mk c' = (some r, c', false)) ∧
    (∀ (lookup lookup' : String → AlfagoResponse) (company : String)
        (mk : Option String) (cache c' : List (String × SecInfo)) (q : Bool),
      fetch_security_id lookup company mk cache = (none, c', q) →
      c' = cache ∧ q = true ∧
      (fetch_security_id lookup' company mk cache).2.2 = true) := by
  constructor
  · intro lookup lookup' company mk cache c' r q h
    unfold fetch_security_id at h ⊢
    cases hl : List.lookup (cacheKey company mk) cache with
    | some v =>
      simp only [hl, Prod.mk.injEq] at h
      obtain ⟨h1, h2, h3⟩ := h
      injection h1 with h1
      subst h1
      subst h2
      simp [hl]
    | none =>
      simp only [hl] at h
      cases hp : processResp (lookup company) mk with
      | none => simp [hp] at h
      | some r0 =>
        simp only [hp, Prod.mk.injEq] at h
        obtain ⟨h1, h2, h3⟩ := h
        injection h1 with h1
        subst h1
        subst h2
        simp [cacheSet_lookup]
  · intro lookup lookup' company mk cache c' q h
    unfold fetch_security_id at h ⊢
    cases hl : List.lookup (cacheKey company mk) cache with
    | some v => simp [hl] at h
    | none =>
      simp only [hl] at h
      cases hp : processResp (lookup company) mk with
      | some r0 => simp [hp] at h
      | none =>
        simp only [hp, Prod.mk.injEq] at h
        obtain ⟨h1, h2, h3⟩ := h
        subst h2
        refine ⟨rfl, h3.symm, ?_⟩
        simp only [hl]
        cases hp' : processResp (lookup' company) mk <;> simp [hp']

/-- Witness for the amended C6 theorem: a successful resolution is cached
and a later call (even against a failing service) is served from the
cache; a no-data outcome is not cached and the service is queried
again. -/
theorem fetch_security_id_cache_witness :
    fetch_security_id (fun _ => AlfagoResponse.exc) "Acme" (some "NSE")
        [("Acme_NSE",
          { security_id := some 7, symbol := some "ACME", isin := some "I",
            market_code := some "NSE", company_name := some "Acme" })] =
      (some { security_id := some 7, symbol := some "ACME",
              isin := some "I", market_code := some "NSE",
              company_name := some "Acme" },
       [("Acme_NSE",
         { security_id := some 7, symbol := some "ACME", isin := some "I",
           market_code := some "NSE", company_name := some "Acme" })],
       false) ∧
    (fetch_security_id (fun _ => AlfagoResponse.timeout) "B" none []).2.2 =
      true := by
  constructor
  · exact fetch_security_id_cache.1
      (fun _ => AlfagoResponse.resp 200 true (some ("success",
        [{ id := some 7, symbol1 := some "ACME", symbol2 := none,
           isin := some "I", market_code1 := some "NSE",
           market_code2 := none, company_name := some "Acme" }])))
      (fun _ => AlfagoResponse.exc) "Acme" (some "NSE") []
      [("Acme_NSE",
        { security_id := some 7, symbol := some "ACME", isin := some "I",
          market_code := some "NSE", company_name := some "Acme" })]
      { security_id := some 7, symbol := some "ACME", isin := some "I",
        market_code := some "NSE", company_name := some "Acme" }
      true (by decide)
  · exact (fetch_security_id_cache.2 (fun _ => AlfagoResponse.timeout)
      (fun _ => AlfagoResponse.timeout) "B" none [] [] true (by decide)).2.2

/-! ### Poll loop lemmas (C8) -/

theorem extract_files_filter (names : List String) :
    extract_files names =
      (names.filter fun n =>
        ! endsWithB (".lst".data) (n.data.map lowc)).map
        fun n => String.mk (("./tmp/").data ++
          ((n.data.reverse.takeWhile fun c => c != '/').reverse)) := by
  induction names with
  | nil => rfl
  | cons n rest ih =>
    unfold extract_files at ih ⊢
    cases hl : endsWithB (".lst".data) (n.data.map lowc) <;>
      simp [List.filterMap_cons, List.filter_cons, extractEntry, hl, ih]

theorem get_batch_aux {polls : Nat → PollResult} {timeout : Nat} :
    ∀ (fuel i : Nat) (res : Except Unit (List String)),
      get_batch polls timeout fuel i = some res →
      ((∀ fs, res = .ok fs →
        ∃ k, i ≤ k ∧ (!(polls k).jsonCT && (polls k).zipSig) = true ∧
          fs = extract_files (polls k).names ∧
          ∀ j, i ≤ j → j < k →
            (!(polls j).jsonCT && (polls j).zipSig) = false ∧
            (polls j).elapsed ≤ timeout) ∧
      (res = .error () →
        ∃ k, i ≤ k ∧ (!(polls k).jsonCT && (polls k).zipSig) = false ∧
          timeout < (polls k).elapsed ∧
          ∀ j, i ≤ j → j < k →
            (!(polls j).jsonCT && (polls j).zipSig) = false ∧
            (polls j).elapsed ≤ timeout)) := by
  intro fuel
  induction fuel with
  | zero => intro i res h; exact Option.noConfusion h
  | succ n ih =>
    intro i res h
    unfold get_batch at h
    by_cases hcomp : (!(polls i).jsonCT && (polls i).zipSig) = true
    · rw [if_pos hcomp] at h
      injection h with h'
      subst h'
      constructor
      · intro fs hfs
        injection hfs with hfs
        exact ⟨i, Nat.le_refl i, hcomp, hfs.symm, fun j hj1 hj2 => absurd hj2 (by omega)⟩
      · intro hfs
        exact Except.noConfusion hfs
    · rw [if_neg hcomp] at h
      by_cases htime : timeout < (polls i).elapsed
      · rw [if_pos htime] at h
        injection h with h'
        subst h'
        constructor
        · intro fs hfs
          exact Except.noConfusion hfs
        · intro _
          exact ⟨i, Nat.le_refl i, Bool.not_eq_true _ ▸ hcomp, htime,
            fun j hj1 hj2 => absurd hj2 (by omega)⟩
      · rw [if_neg htime] at h
        obtain ⟨hok, herr⟩ := ih (i + 1) res h
        constructor
        · intro fs hfs
          obtain ⟨k, hk1, hk2, hk3, hk4⟩ := hok fs hfs
          refine ⟨k, by omega, hk2, hk3, fun j hj1 hj2 => ?_⟩
          by_cases hji : j = i
          · subst hji
            exact ⟨Bool.not_eq_true _ ▸ hcomp, by omega⟩
          · exact hk4 j (by omega) hj2
        · intro hfs
          obtain ⟨k, hk1, hk2, hk3, hk4⟩ := herr hfs
          refine ⟨k, by omega, hk2, hk3, fun j hj1 hj2 => ?_⟩
          by_cases hji : j = i
          · subst hji
            exact ⟨Bool.not_eq_true _ ▸ hcomp, by omega⟩
          · exact hk4 j (by omega) hj2

/-- C8: whenever the poll loop terminates within its fuel, it either
returns the staged paths of exactly the non-`.lst` archive entries of the
first completed response (one that is not JSON and starts with the ZIP
signature), every earlier poll being neither completed nor beyond the
timeout, or raises `TimeoutError` at the first still-processing response
received strictly more than `timeout` seconds after the first poll; it
never returns normally without a completed archive. -/
theorem get_batch_spec :
    (∀ (polls : Nat → PollResult) (timeout fuel : Nat)
        (res : Except Unit (List String)),
      get_batch polls timeout fuel 0 = some res →
      (∀ fs, res = .ok fs →
        ∃ k, (!(polls k).jsonCT && (polls k).zipSig) = true ∧
          fs = extract_files (polls k).names ∧
          ∀ j < k, (!(polls j).jsonCT && (polls j).zipSig) = false ∧
            (polls j).elapsed ≤ timeout) ∧
      (res = .error () →
        ∃ k, (!(polls k).jsonCT && (polls k).zipSig) = false ∧
          timeout < (polls k).elapsed ∧
          ∀ j < k, (!(polls j).jsonCT && (polls j).zipSig) = false ∧
            (polls j).elapsed ≤ timeout)) ∧
    (∀ names : List String, extract_files names =
      (names.filter fun n =>
        ! endsWithB (".lst".data) (n.data.map lowc)).map
        fun n => String.mk (("./tmp/").data ++
          ((n.data.reverse.takeWhile fun c => c != '/').reverse))) := by
  refine ⟨fun polls timeout fuel res h => ?_, extract_files_filter⟩
  obtain ⟨hok, herr⟩ := get_batch_aux fuel 0 res h
  constructor
  · intro fs hfs
    obtain ⟨k, _, hk2, hk3, hk4⟩ := hok fs hfs
    exact ⟨k, hk2, hk3, fun j hj => hk4 j (Nat.zero_le j) hj⟩
  · intro hfs
    obtain ⟨k, _, hk2, hk3, hk4⟩ := herr hfs
    exact ⟨k, hk2, hk3, fun j hj => hk4 j (Nat.zero_le j) hj⟩

/-- Witness for C8: a first still-processing poll followed by a completed
archive containing one data file and one `.lst` manifest. -/
theorem get_batch_spec_witness :
    get_batch
      (fun i => if i = 0 then ⟨true, false, [], 0⟩
        else ⟨false, true, ["a.json", "x.lst"], 5⟩) 300 2 0 =
      some (.ok ["./tmp/a.json"]) ∧
    (∃ k, (!((fun i => if i = 0 then (⟨true, false, [], 0⟩ : PollResult)
        else ⟨false, true, ["a.json", "x.lst"], 5⟩) k).jsonCT &&
        ((fun i => if i = 0 then (⟨true, false, [], 0⟩ : PollResult)
          else ⟨false, true, ["a.json", "x.lst"], 5⟩) k).zipSig) = true ∧
      ["./tmp/a.json"] = extract_files
        ((fun i => if i = 0 then (⟨true, false, [], 0⟩ : PollResult)
          else ⟨false, true, ["a.json", "x.lst"], 5⟩) k).names ∧
      ∀ j < k, (!((fun i => if i = 0 then (⟨true, false, [], 0⟩ : PollResult)
          else ⟨false, true, ["a.json", "x.lst"], 5⟩) j).jsonCT &&
          ((fun i => if i = 0 then (⟨true, false, [], 0⟩ : PollResult)
            else ⟨false, true, ["a.json", "x.lst"], 5⟩) j).zipSig) = false ∧
        ((fun i => if i = 0 then (⟨true, false, [], 0⟩ : PollResult)
          else ⟨false, true, ["a.json", "x.lst"], 5⟩) j).elapsed ≤ 300) := by
  refine ⟨rfl, ?_⟩
  exact ((get_batch_spec.1
    (fun i => if i = 0 then ⟨true, false, [], 0⟩
      else ⟨false, true, ["a.json", "x.lst"], 5⟩) 300 2
    (.ok ["./tmp/a.json"]) rfl).1 ["./tmp/a.json"] rfl)

/-! ### Orchestrator lemmas (C3) -/

theorem runHandler_ok (pf : String → Option Rat)
    (smap : String → Option SecInfo) (kind : ActionKind) (fc : RawFile)
    (market : String) (db : List CorporateAction)
    (hfc : fc ≠ RawFile.malformed) :
    ∃ r, runHandler pf smap kind fc market db = .ok r := by
  cases kind <;> cases fc <;>
    first
    | exact absurd rfl hfc
    | exact ⟨_, rfl⟩

theorem processFilesFor_ok (pf : String → Option Rat)
    (smap : String → Option SecInfo) (kind : ActionKind) (market : String) :
    ∀ (jfiles : List (String × RawFile)) (db : List CorporateAction),
      (∀ p ∈ jfiles, p.2 ≠ RawFile.malformed) →
      ∃ db' c, processFilesFor pf smap kind market jfiles db = .ok (db', c) := by
  intro jfiles
  induction jfiles with
  | nil => intro db _; exact ⟨db, 0, rfl⟩
  | cons p rest ih =>
    intro db hall
    obtain ⟨name, fc⟩ := p
    obtain ⟨r, hr⟩ :=
      runHandler_ok pf smap kind fc market db (hall (name, fc) (by simp))
    obtain ⟨db2, c2⟩ := r
    obtain ⟨db', c', hrest⟩ := ih db2 fun q hq => hall q (by simp [hq])
    refine ⟨db', c2 + c', ?_⟩
    unfold processFilesFor
    rw [hr]
    simp only []
    rw [hrest]

theorem processHandlers_ok (pf : String → Option Rat)
    (smap : String → Option SecInfo) (files : List (String × RawFile))
    (hall : ∀ p ∈ files, p.2 ≠ RawFile.malformed) :
    ∀ (hs : List (String × ActionKind × String))
      (db : List CorporateAction) (stats : List (String × Nat)),
      ∃ out, processHandlers pf smap files hs db stats = .ok out := by
  intro hs
  induction hs with
  | nil => intro db stats; exact ⟨_, rfl⟩
  | cons h0 hs ih =>
    intro db stats
    obtain ⟨pattern, kind, market⟩ := h0
    unfold processHandlers
    cases hfil : files.filter (fun p => matchesHandler pattern p.1) with
    | nil =>
      simp only []
      exact ih db stats
    | cons q qs =>
      have hsub : ∀ p ∈ q :: qs, p.2 ≠ RawFile.malformed := by
        intro p hp
        rw [← hfil] at hp
        exact hall p (List.mem_filter.1 hp).1
      obtain ⟨db', c', hpf⟩ :=
        processFilesFor_ok pf smap kind market (q :: qs) db hsub
      simp only []
      rw [hpf]
      exact ih db' _

/-- C3 counterexample: a staged file whose content is not valid JSON
raises out of `process_all_files` (modelled by the propagated `Except`
error), aborting the run before later matching files are processed and
producing no count summary. -/
theorem process_all_files_malformed_counterexample :
    process_all_files (fun _ => none) (fun _ => none)
      [("bonus_nse.json", RawFile.malformed),
       ("dividend_nse.json",
        RawFile.headData [] [["Acme", "", "", "N.A.", "t", ""]])]
      [] = .error () := rfl

/-- C3 (amended): a staged file whose content is valid JSON but not the
expected head/data structure is skipped — its handler returns the store
unchanged with count 0 — and a run over files all of which are at least
valid JSON completes with a count summary, no exception escaping; a file
that is not valid JSON at all, however, raises and aborts the whole
run. -/
theorem process_all_files_skip_semantics :
    (∀ (pf : String → Option Rat) (smap : String → Option SecInfo)
        (market : String) (db : List CorporateAction),
      process_bonus_data pf smap RawFile.other market db = .ok (db, 0) ∧
      process_dividend_data pf smap RawFile.other market db = .ok (db, 0) ∧
      process_split_data pf smap RawFile.other market db = .ok (db, 0) ∧
      process_rights_data pf smap RawFile.other market db = .ok (db, 0)) ∧
    (∀ (pf : String → Option Rat) (smap : String → Option SecInfo)
        (files : List (String × RawFile)) (db : List CorporateAction),
      (∀ p ∈ files, p.2 ≠ RawFile.malformed) →
      ∃ out, process_all_files pf smap files db = .ok out) := by
  refine ⟨fun pf smap market db => ⟨rfl, rfl, rfl, rfl⟩,
    fun pf smap files db hall => ?_⟩
  unfold process_all_files
  exact processHandlers_ok pf smap files hall file_handlers db []

/-- Witness for the amended C3 theorem: one wrong-shape file among the
staged files; the run completes. -/
theorem process_all_files_skip_semantics_witness :
    process_bonus_data (fun _ => none) (fun _ => none) RawFile.other "NSE"
      [] = .ok ([], 0) ∧
    ∃ out, process_all_files (fun _ => none) (fun _ => none)
      [("bonus_nse.json", RawFile.other),
       ("dividend_nse.json",
        RawFile.headData [] [["Acme", "", "", "N.A.", "t", ""]])]
      [] = .ok out :=
  ⟨(process_all_files_skip_semantics.1 (fun _ => none) (fun _ => none)
      "NSE" []).1,
   process_all_files_skip_semantics.2 (fun _ => none) (fun _ => none)
     [("bonus_nse.json", RawFile.other),
      ("dividend_nse.json",
       RawFile.headData [] [["Acme", "", "", "N.A.", "t", ""]])]
     [] (by decide)⟩

end Eventmaster
